/-
Verification of the thrill repository fragment: the ScheduleThread periodic
task scheduler (src/thrill/common/schedule_thread.{hpp,cpp}) and the BlockPool
byte-block memory manager (src/thrill/data/block_pool.hpp).

The ScheduleThread definitions are translated directly from the source files.
The BlockPool implementation file (block_pool.cpp) is not part of the
repository fragment; only its header is.  The BlockPool operations are
therefore modelled from the specification, with the state fields taken from
the header.  Time points and durations are modelled as natural numbers of
clock ticks; task and block pointers are modelled as natural-number
identifiers.
-/
import Mathlib

set_option maxHeartbeats 1000000

namespace Thrill

/-! ### ScheduleThread (src/thrill/common/schedule_thread.hpp / .cpp) -/

/-- `ScheduleThread::Timer` (schedule_thread.hpp lines 86-102):
`(next_timeout, period, task, own_task)`.  Time points and periods are clock
ticks as `Nat`; the `ScheduleTask*` pointer is an identifier. -/
structure Timer where
  next_timeout : Nat
  period : Nat
  task : Nat
  own_task : Bool
deriving DecidableEq, Repr

/-- `ScheduleThread::Timer::operator<` (schedule_thread.cpp lines 75-77):
`return next_timeout > b.next_timeout;`. -/
def Timer.lt (a b : Timer) : Bool :=
  decide (b.next_timeout < a.next_timeout)

/-- Modelled from the spec: `BinaryHeap` (common/binary_heap.hpp is not in the
repository fragment) is a standard priority-queue binary heap ordered by the
element comparator: `top()` returns an element that is not `operator<` any
other element of the heap, i.e. a maximal element under `Timer.lt`.  We model
the heap contents as a list and `top` as the comparator-maximal fold. -/
def heapTop (x : Timer) (xs : List Timer) : Timer :=
  xs.foldl (fun best t => if Timer.lt best t then t else best) x

/-- `ScheduleThread::Add` (schedule_thread.hpp lines 57-64): emplaces
`Timer(now + period, period, task, own_task)` into the heap. -/
def scheduleAdd (tasks : List Timer) (now period task : Nat) (own : Bool) :
    List Timer :=
  Timer.mk (now + period) period task own :: tasks

/-- The requeue step of `ScheduleThread::Worker` (schedule_thread.cpp lines
55-58): after firing, the timer is re-emplaced as
`Timer(top.next_timeout + top.period, top.period, top.task, top.own_task)`. -/
def requeueTimer (t : Timer) : Timer :=
  { next_timeout := t.next_timeout + t.period, period := t.period,
    task := t.task, own_task := t.own_task }

/-- The predicate of the condition-variable wait executed by
`ScheduleThread::Worker` when the timer heap is empty (schedule_thread.cpp
line 47): `[this]() { return !tasks_.empty(); }`.  The predicate reads only
the heap; the terminate flag is passed here to record that the source closure
does not consult it. -/
def workerEmptyWaitPredicate (_terminate : Bool) (tasks : List Timer) : Bool :=
  !tasks.isEmpty

/-- The task deletions performed by `ScheduleThread::~ScheduleThread`
(schedule_thread.cpp lines 33-36): for each timer in the heap container,
`delete t.task` exactly when `t.own_task` holds. -/
def destructorDeletedTasks (tasks : List Timer) : List Nat :=
  (tasks.filter (fun t => t.own_task)).map (fun t => t.task)

/-! ### BlockPool (src/thrill/data/block_pool.hpp; implementation modelled
from the spec) -/

/-- Residence state of a `ByteBlock`, following the spec's state machine
(`RAM-pinned`, `RAM-unpinned`, `Writing`, `Swapped`, `Reading`; a destroyed
block is simply removed from the pool's block map). -/
inductive Residence where
  | pinned
  | unpinned
  | writing
  | swapped
  | reading
deriving DecidableEq, Repr

/-- A `ByteBlock` as the pool sees it: its size in bytes, its per-worker pin
counts, and its residence state. -/
structure ByteBlock where
  size : Nat
  pins : List Nat
  res : Residence
deriving DecidableEq, Repr

/-- Total number of pins of a block over all workers. -/
def ByteBlock.totalPins (b : ByteBlock) : Nat :=
  b.pins.foldr (· + ·) 0

/-- Add `d` to entry `i` of a list of counters (out-of-range indices are left
unchanged, matching vector indexing guarded by `w < workers_per_host`). -/
def listAdd : List Nat → Nat → Nat → List Nat
  | [], _, _ => []
  | x :: xs, 0, d => (x + d) :: xs
  | x :: xs, i + 1, d => x :: listAdd xs i d

/-- Subtract `d` from entry `i` of a list of counters. -/
def listSub : List Nat → Nat → Nat → List Nat
  | [], _, _ => []
  | x :: xs, 0, d => (x - d) :: xs
  | x :: xs, i + 1, d => x :: listSub xs i d

/-- A fresh pin vector for `W` workers with one pin on worker `w`. -/
def oneHot (W w : Nat) : List Nat :=
  listAdd (List.replicate W 0) w 1

/-- `BlockPool::PinCount` (block_pool.hpp lines 127-160): totals, watermarks
and per-worker pin/byte vectors. -/
structure PinCount where
  total_pins : Nat
  total_pinned_bytes : Nat
  max_pins : Nat
  max_pinned_bytes : Nat
  pin_count : List Nat
  pinned_bytes : List Nat
deriving DecidableEq, Repr

/-- `PinCount` constructor: zero counters for `W` workers. -/
def PinCount.init (W : Nat) : PinCount :=
  ⟨0, 0, 0, 0, List.replicate W 0, List.replicate W 0⟩

/-- Modelled from the spec (§4.4): `Increment(w, size)` adds one pin and
`size` pinned bytes for worker `w` and updates totals and watermarks. -/
def PinCount.Increment (pc : PinCount) (w size : Nat) : PinCount :=
  { total_pins := pc.total_pins + 1,
    total_pinned_bytes := pc.total_pinned_bytes + size,
    max_pins := Nat.max pc.max_pins (pc.total_pins + 1),
    max_pinned_bytes := Nat.max pc.max_pinned_bytes (pc.total_pinned_bytes + size),
    pin_count := listAdd pc.pin_count w 1,
    pinned_bytes := listAdd pc.pinned_bytes w size }

/-- Modelled from the spec (§4.4): `Decrement(w, size)` is the inverse of
`Increment`. -/
def PinCount.Decrement (pc : PinCount) (w size : Nat) : PinCount :=
  { pc with
    total_pins := pc.total_pins - 1,
    total_pinned_bytes := pc.total_pinned_bytes - size,
    pin_count := listSub pc.pin_count w 1,
    pinned_bytes := listSub pc.pinned_bytes w size }

/-- Future returned by `PinBlock`: either already resolved with a pinned
handle to the block, or pending on the block's in-flight `ReadRequest`. -/
inductive PinResult where
  | ready (block : Nat)
  | pending (block : Nat)
deriving DecidableEq, Repr

/-- The `BlockPool` state, with the fields of block_pool.hpp lines 109-199:
the block map (blocks by identifier, with their residence and pins), the list
of live identifiers, the unpinned LRU (`unpinned_blocks_`, LRU order first),
the promises attached to each in-flight `ReadRequest` (worker ids, newest
first), a counter of asynchronous reads issued to the `BlockManager`, and the
byte accounting counters.  The soft and hard RAM limits are carried as fields
here; their `static` declaration in the header is modelled separately below. -/
structure BlockPool where
  workers_per_host : Nat
  soft_ram_limit : Nat
  hard_ram_limit : Nat
  blocks : Nat → Option ByteBlock
  ids : List Nat
  unpinned_blocks : List Nat
  promises : Nat → List Nat
  reads_issued : Nat
  requested_bytes : Nat
  writing_bytes : Nat
  total_ram_use : Nat
  pin_count : PinCount

/-- A fresh `BlockPool` with the given limits and worker count. -/
def BlockPool.initial (soft hard W : Nat) : BlockPool :=
  { workers_per_host := W, soft_ram_limit := soft, hard_ram_limit := hard,
    blocks := fun _ => none, ids := [], unpinned_blocks := [],
    promises := fun _ => [], reads_issued := 0, requested_bytes := 0,
    writing_bytes := 0, total_ram_use := 0, pin_count := PinCount.init W }

/-- Point update of the block map. -/
def updBlock (m : Nat → Option ByteBlock) (b : Nat) (v : Option ByteBlock) :
    Nat → Option ByteBlock :=
  fun x => if x = b then v else m x

/-- Byte size of block `b` under block map `m` (0 if absent). -/
def sizeOf (m : Nat → Option ByteBlock) (b : Nat) : Nat :=
  match m b with
  | some info => info.size
  | none => 0

/-- Whether block `b` has residence `r` under block map `m`. -/
def hasRes (m : Nat → Option ByteBlock) (b : Nat) (r : Residence) : Bool :=
  match m b with
  | some info => info.res == r
  | none => false

/-- Byte contribution of block `b` to the residence class `r`. -/
def resBytes (m : Nat → Option ByteBlock) (r : Residence) (b : Nat) : Nat :=
  match m b with
  | some info => if info.res = r then info.size else 0
  | none => 0

/-- Per-worker pin count of block `b` in pool state `st`. -/
def pinCountOf (st : BlockPool) (b w : Nat) : Nat :=
  match st.blocks b with
  | some info => info.pins.getD w 0
  | none => 0

/-- Total pin count of block `b` in pool state `st`. -/
def totalPinsOf (st : BlockPool) (b : Nat) : Nat :=
  match st.blocks b with
  | some info => info.totalPins
  | none => 0

/-- Sum of `f` over a list of block identifiers. -/
def listSum (f : Nat → Nat) : List Nat → Nat
  | [] => 0
  | b :: l => f b + listSum f l

/-- Modelled from the spec (§4.5, AllocateByteBlock step 2; block_pool.cpp is
not in the repository fragment): `RequestInternalMemory(lock, size)` admits a
request exactly when there is no hard limit or
`total_ram_use + requested_bytes + size ≤ hard_ram_limit`, crediting
`requested_bytes += size` on admission; otherwise the caller blocks on
`memory_change_`, modelled by returning `none`. -/
def BlockPool.RequestInternalMemory (st : BlockPool) (size : Nat) :
    Option BlockPool :=
  if st.hard_ram_limit = 0 ∨
      st.total_ram_use + st.requested_bytes + size ≤ st.hard_ram_limit then
    some { st with requested_bytes := st.requested_bytes + size }
  else
    none

/-- The state of a freshly allocated block: RAM-resident and pinned, with one
pin on worker `w` out of `W` workers. -/
def freshBlock (W w size : Nat) : ByteBlock :=
  ⟨size, oneHot W w, Residence.pinned⟩

/-- Modelled from the spec (§4.5 AllocateByteBlock; block_pool.cpp is not in
the repository fragment): admit the request through `RequestInternalMemory`,
allocate the block (credit `total_ram_use`, debit `requested_bytes`), record
it as RAM-resident with pin count 1 on `worker_id`, and return a pinned
handle.  The fresh block is not placed in `unpinned_blocks`.  The caller
supplies a fresh identifier `id` (the address of the new block). -/
def BlockPool.AllocateByteBlock (st : BlockPool) (id size w : Nat) :
    Option BlockPool :=
  match st.blocks id with
  | some _ => none
  | none =>
    if w < st.workers_per_host then
      match st.RequestInternalMemory size with
      | none => none
      | some st1 =>
        some { st1 with
          total_ram_use := st1.total_ram_use + size,
          requested_bytes := st1.requested_bytes - size,
          blocks := updBlock st1.blocks id
            (some (freshBlock st1.workers_per_host w size)),
          ids := id :: st1.ids,
          pin_count := st1.pin_count.Increment w size }
    else none

/-- Modelled from the spec (`IncBlockPinCount`, header lines 100-101: requires
the pin count to be > 0, i.e. the block is RAM-resident and pinned):
increments the per-worker pin and the pool pin counters. -/
def BlockPool.IncBlockPinCount (st : BlockPool) (b w : Nat) : Option BlockPool :=
  match st.blocks b with
  | none => none
  | some info =>
    if info.res = Residence.pinned ∧ 0 < info.totalPins ∧
        w < st.workers_per_host then
      some { st with
        blocks := updBlock st.blocks b
          (some { info with pins := listAdd info.pins w 1 }),
        pin_count := st.pin_count.Increment w info.size }
    else none

/-- Modelled from the spec (§4.5 EvictBlock): picks the LRU entry of
`unpinned_blocks_`, moves it to `writing_`, and increments `writing_bytes` by
its size; RAM is not released until the write completes.  Returns the chosen
block together with the new state, `none` when no candidate exists. -/
def BlockPool.EvictBlock (st : BlockPool) : Option (Nat × BlockPool) :=
  match st.unpinned_blocks with
  | [] => none
  | b :: rest =>
    match st.blocks b with
    | none => none
    | some info =>
      some (b, { st with
        unpinned_blocks := rest,
        blocks := updBlock st.blocks b
          (some { info with res := Residence.writing }),
        writing_bytes := st.writing_bytes + info.size })

/-- Modelled from the spec (§4.5 UnpinBlock): while the soft limit is set and
exceeded, evict LRU blocks until no candidate remains.  `fuel` bounds the
number of evictions (the caller passes the LRU length). -/
def BlockPool.evictLoop : Nat → BlockPool → BlockPool
  | 0, st => st
  | fuel + 1, st =>
    if st.soft_ram_limit ≠ 0 ∧ st.soft_ram_limit < st.total_ram_use then
      match st.EvictBlock with
      | none => st
      | some (_, st1) => BlockPool.evictLoop fuel st1
    else st

/-- Modelled from the spec (`DecBlockPinCount` and §4.5 UnpinBlock):
decrements the per-worker pin; when the total pin count reaches zero the
block is inserted into `unpinned_blocks_` as MRU and the pool evicts while
over the soft limit. -/
def BlockPool.DecBlockPinCount (st : BlockPool) (b w : Nat) : Option BlockPool :=
  match st.blocks b with
  | none => none
  | some info =>
    if info.res = Residence.pinned ∧ 0 < info.pins.getD w 0 ∧
        w < st.workers_per_host then
      if (listSub info.pins w 1).foldr (· + ·) 0 = 0 then
        some (BlockPool.evictLoop (st.unpinned_blocks ++ [b]).length { st with
          blocks := updBlock st.blocks b
            (some { info with pins := listSub info.pins w 1, res := Residence.unpinned }),
          unpinned_blocks := st.unpinned_blocks ++ [b],
          pin_count := st.pin_count.Decrement w info.size })
      else
        some { st with
          blocks := updBlock st.blocks b
            (some { info with pins := listSub info.pins w 1 }),
          pin_count := st.pin_count.Decrement w info.size }
    else none

/-- Modelled from the spec (§4.5 OnWriteComplete): under the lock, remove the
block from `writing_`, decrement `writing_bytes` and `total_ram_use` by its
size, move it to `swapped_`, and notify `memory_change_`. -/
def BlockPool.OnWriteComplete (st : BlockPool) (b : Nat) : Option BlockPool :=
  match st.blocks b with
  | none => none
  | some info =>
    if info.res = Residence.writing then
      some { st with
        blocks := updBlock st.blocks b
          (some { info with res := Residence.swapped }),
        writing_bytes := st.writing_bytes - info.size,
        total_ram_use := st.total_ram_use - info.size }
    else none

/-- Modelled from the spec (§4.5 PinBlock): dispatch on the block's
residence.  RAM-resident (pinned or unpinned): increment the pin and return a
ready future, un-listing an unpinned block from the LRU.  Writing: cancel the
write (the bytes are still in RAM), un-list it and pin.  Swapped: request
memory, allocate a read buffer (credit `total_ram_use`), issue exactly one
asynchronous read, create the block's `ReadRequest` with one attached
promise, and return a pending future.  Reading: attach one more promise to
the existing `ReadRequest` — no new read is issued. -/
def BlockPool.PinBlock (st : BlockPool) (b w : Nat) :
    Option (BlockPool × PinResult) :=
  match st.blocks b with
  | none => none
  | some info =>
    if w < st.workers_per_host then
      match info.res with
      | Residence.pinned =>
        some ({ st with
          blocks := updBlock st.blocks b
            (some { info with pins := listAdd info.pins w 1 }),
          pin_count := st.pin_count.Increment w info.size },
          PinResult.ready b)
      | Residence.unpinned =>
        some ({ st with
          unpinned_blocks := st.unpinned_blocks.erase b,
          blocks := updBlock st.blocks b
            (some { info with pins := listAdd info.pins w 1, res := Residence.pinned }),
          pin_count := st.pin_count.Increment w info.size },
          PinResult.ready b)
      | Residence.writing =>
        some ({ st with
          writing_bytes := st.writing_bytes - info.size,
          blocks := updBlock st.blocks b
            (some { info with pins := listAdd info.pins w 1, res := Residence.pinned }),
          pin_count := st.pin_count.Increment w info.size },
          PinResult.ready b)
      | Residence.swapped =>
        match st.RequestInternalMemory info.size with
        | none => none
        | some st1 =>
          some ({ st1 with
            total_ram_use := st1.total_ram_use + info.size,
            requested_bytes := st1.requested_bytes - info.size,
            blocks := updBlock st1.blocks b
              (some { info with res := Residence.reading }),
            promises := fun x => if x = b then [w] else st1.promises x,
            reads_issued := st1.reads_issued + 1 },
            PinResult.pending b)
      | Residence.reading =>
        some ({ st with
          promises := fun x =>
            if x = b then w :: st.promises x else st.promises x },
          PinResult.pending b)
    else none

/-- Modelled from the spec (§4.5 OnReadComplete): transfer the read buffer
into the block, leave `reading_` (and the swap set), pin the block once for
every attached promise, and resolve all attached promises with pinned
handles to the block. -/
def BlockPool.OnReadComplete (st : BlockPool) (b : Nat) :
    Option (BlockPool × List PinResult) :=
  match st.blocks b with
  | none => none
  | some info =>
    if info.res = Residence.reading then
      some ({ st with
        blocks := updBlock st.blocks b
          (some { info with res := Residence.pinned, pins := (st.promises b).foldr (fun w pins => listAdd pins w 1) info.pins }),
        promises := fun x => if x = b then [] else st.promises x,
        pin_count := (st.promises b).foldr
          (fun w pc => pc.Increment w info.size) st.pin_count },
        (st.promises b).map (fun _ => PinResult.ready b))
    else none

/-- Modelled from the spec (`DestroyBlock`): with no outstanding pin or I/O,
remove the block from its residence set, debit the accounting, release its
RAM (for a RAM-resident block) and free it. -/
def BlockPool.DestroyBlock (st : BlockPool) (b : Nat) : Option BlockPool :=
  match st.blocks b with
  | none => none
  | some info =>
    if info.totalPins = 0 then
      match info.res with
      | Residence.unpinned =>
        some { st with
          blocks := updBlock st.blocks b none,
          ids := st.ids.erase b,
          unpinned_blocks := st.unpinned_blocks.erase b,
          total_ram_use := st.total_ram_use - info.size }
      | Residence.swapped =>
        some { st with
          blocks := updBlock st.blocks b none,
          ids := st.ids.erase b }
      | _ => none
    else none

/-- One public or callback step of the `BlockPool` (all steps run under the
pool mutex, so the pool's history is a sequence of these). -/
inductive BlockPool.Step : BlockPool → BlockPool → Prop where
  | alloc {st st' : BlockPool} (id size w : Nat) :
      st.AllocateByteBlock id size w = some st' → BlockPool.Step st st'
  | incPin {st st' : BlockPool} (b w : Nat) :
      st.IncBlockPinCount b w = some st' → BlockPool.Step st st'
  | decPin {st st' : BlockPool} (b w : Nat) :
      st.DecBlockPinCount b w = some st' → BlockPool.Step st st'
  | onWrite {st st' : BlockPool} (b : Nat) :
      st.OnWriteComplete b = some st' → BlockPool.Step st st'
  | pin {st st' : BlockPool} (b w : Nat) (r : PinResult) :
      st.PinBlock b w = some (st', r) → BlockPool.Step st st'
  | onRead {st st' : BlockPool} (b : Nat) (rs : List PinResult) :
      st.OnReadComplete b = some (st', rs) → BlockPool.Step st st'
  | destroy {st st' : BlockPool} (b : Nat) :
      st.DestroyBlock b = some st' → BlockPool.Step st st'

/-- States reachable from a freshly constructed pool by `BlockPool` steps. -/
inductive BlockPool.Reachable : BlockPool → Prop where
  | init (soft hard W : Nat) : BlockPool.Reachable (BlockPool.initial soft hard W)
  | step {st st' : BlockPool} : BlockPool.Reachable st →
      BlockPool.Step st st' → BlockPool.Reachable st'

/-! ### The pool invariant -/

/-- The well-formedness and accounting invariant of reachable `BlockPool`
states: identifiers and the LRU are duplicate-free, the LRU contains exactly
the RAM-resident strictly-unpinned blocks (all with pin count zero),
`writing_bytes` is the byte total of blocks being written, and
`total_ram_use` equals the bytes of the unpinned LRU plus the bytes of
RAM-pinned blocks (each counted once) plus `writing_bytes` plus the bytes of
in-flight read buffers. -/
structure BlockPool.Inv (st : BlockPool) : Prop where
  ids_nodup : st.ids.Nodup
  lru_nodup : st.unpinned_blocks.Nodup
  lru_sub : ∀ b ∈ st.unpinned_blocks, b ∈ st.ids
  dom : ∀ b : Nat, b ∈ st.ids ↔ st.blocks b ≠ none
  lru_res : ∀ b ∈ st.unpinned_blocks, ∃ info, st.blocks b = some info ∧
      info.res = Residence.unpinned ∧ info.totalPins = 0
  res_lru : ∀ b info, st.blocks b = some info →
      info.res = Residence.unpinned → b ∈ st.unpinned_blocks
  wbytes : st.writing_bytes =
      listSum (resBytes st.blocks Residence.writing) st.ids
  ram : st.total_ram_use =
      listSum (sizeOf st.blocks) st.unpinned_blocks
        + listSum (resBytes st.blocks Residence.pinned) st.ids
        + st.writing_bytes
        + listSum (resBytes st.blocks Residence.reading) st.ids

/-! ### The static limit fields (block_pool.hpp lines 193-199) -/

/-- The limits as declared in the source header: `static size_t
soft_ram_limit_;` and `static size_t hard_ram_limit_;` — class-static, one
copy per process shared by all `BlockPool` instances. -/
structure BlockPoolStatics where
  soft_ram_limit : Nat
  hard_ram_limit : Nat
deriving DecidableEq, Repr

/-- A process holding the single copy of the static limit fields and some
number of `BlockPool` instances; per the source constructor (block_pool.hpp
lines 72-79) an instance stores no limits of its own. -/
structure BlockPoolProcess where
  statics : BlockPoolStatics
  pool_count : Nat
deriving DecidableEq, Repr

/-- The soft limit observed by pool number `i`: the static field. -/
def BlockPoolProcess.observedSoft (p : BlockPoolProcess) (_i : Nat) : Nat :=
  p.statics.soft_ram_limit

/-- The hard limit observed by pool number `i`: the static field. -/
def BlockPoolProcess.observedHard (p : BlockPoolProcess) (_i : Nat) : Nat :=
  p.statics.hard_ram_limit

/-- Constructing another `BlockPool`: the constructor's initializer list
(block_pool.hpp lines 72-79) never touches the static limit fields — its
`soft_ram_limit` and `hard_ram_limit` arguments are not stored anywhere. -/
def BlockPoolProcess.constructPool (p : BlockPoolProcess)
    (_soft _hard : Nat) : BlockPoolProcess :=
  { p with pool_count := p.pool_count + 1 }

/-- Assigning the limits writes the static fields, the only place they
live. -/
def BlockPoolProcess.setLimits (p : BlockPoolProcess) (soft hard : Nat) :
    BlockPoolProcess :=
  { p with statics := ⟨soft, hard⟩ }

/-- A pool at the hard limit whose next request must block. -/
def c2deny : BlockPool :=
  { BlockPool.initial 0 8192 1 with total_ram_use := 8000 }

/-- The pool after a successful admission of 4096 bytes under hard limit
8192. -/
def c2granted : BlockPool :=
  ((BlockPool.initial 0 8192 1).RequestInternalMemory 4096).getD
    (BlockPool.initial 0 8192 1)

/-- The pool after allocating block 0 of 4096 bytes for worker 0. -/
def c1st : BlockPool :=
  ((BlockPool.initial 0 0 1).AllocateByteBlock 0 4096 0).getD
    (BlockPool.initial 0 0 1)

/-- The pool after allocating block 0 for worker 0 (soft and hard limits
off). -/
def c4a : BlockPool :=
  ((BlockPool.initial 0 0 1).AllocateByteBlock 0 4096 0).getD
    (BlockPool.initial 0 0 1)

/-- The pool after also dropping the pin: block 0 sits in the unpinned
LRU. -/
def c4b : BlockPool :=
  (c4a.DecBlockPinCount 0 0).getD c4a

/-- The pool after `EvictBlock` picks block 0 out of `c4b`. -/
def c4evicted : BlockPool :=
  (c4b.EvictBlock.map Prod.snd).getD c4b

/-- Pool after allocating block 0 (4096 bytes, worker 0, no limits). -/
def cex3a : BlockPool :=
  ((BlockPool.initial 0 0 1).AllocateByteBlock 0 4096 0).getD
    (BlockPool.initial 0 0 1)

/-- Pool after also taking a second pin on block 0 through
`IncBlockPinCount`. -/
def cex3b : BlockPool :=
  (cex3a.IncBlockPinCount 0 0).getD cex3a

/-- A sequence of `PinBlock` calls on block `b` by the workers listed in
order: the pool mutex serialises concurrent callers, so `K` concurrent pins
are a sequence of `K` calls.  Collects the returned futures. -/
def pinSeq : BlockPool → Nat → List Nat → Option (BlockPool × List PinResult)
  | st, _, [] => some (st, [])
  | st, b, v :: ws =>
    match st.PinBlock b v with
    | none => none
    | some (st1, r) =>
      match pinSeq st1 b ws with
      | none => none
      | some (st2, rs) => some (st2, r :: rs)

/-- A pool holding one 4096-byte block, resident in external memory
(swapped), with two workers. -/
def c8st : BlockPool :=
  { workers_per_host := 2, soft_ram_limit := 0, hard_ram_limit := 0,
    blocks := fun x =>
      if x = 0 then some ⟨4096, [0, 0], Residence.swapped⟩ else none,
    ids := [0], unpinned_blocks := [], promises := fun _ => [],
    reads_issued := 0, requested_bytes := 0, writing_bytes := 0,
    total_ram_use := 4096, pin_count := PinCount.init 2 }

/-- The pool after three serialised `PinBlock` calls (workers 0, 1, 1) on the
swapped block 0. -/
def c8st2 : BlockPool :=
  ((pinSeq c8st 0 [0, 1, 1]).map Prod.fst).getD c8st

/-- The three futures returned by the calls. -/
def c8rs : List PinResult :=
  ((pinSeq c8st 0 [0, 1, 1]).map Prod.snd).getD []

/-! ### Theorems -/

/-- Auxiliary: the fold underlying `heapTop` yields an element whose
`next_timeout` is at most the seed's and at most every listed element's. -/
theorem heapTop_le (xs : List Timer) : ∀ x : Timer,
    (heapTop x xs).next_timeout ≤ x.next_timeout ∧
      ∀ t ∈ xs, (heapTop x xs).next_timeout ≤ t.next_timeout := by
  induction xs with
  | nil => intro x; exact ⟨Nat.le_refl _, by intro t ht; cases ht⟩
  | cons y ys ih =>
    intro x
    have hstep : heapTop x (y :: ys) =
        heapTop (if Timer.lt x y then y else x) ys := rfl
    rcases ih (if Timer.lt x y then y else x) with ⟨h1, h2⟩
    have hseed : (if Timer.lt x y then y else x).next_timeout ≤ x.next_timeout ∧
        (if Timer.lt x y then y else x).next_timeout ≤ y.next_timeout := by
      by_cases hc : y.next_timeout < x.next_timeout
      · simp [Timer.lt, hc]; omega
      · simp [Timer.lt, hc]; omega
    constructor
    · rw [hstep]; exact Nat.le_trans h1 hseed.1
    · intro t ht
      rw [hstep]
      rcases List.mem_cons.mp ht with rfl | hmem
      · exact Nat.le_trans h1 hseed.2
      · exact h2 t hmem

/-- Auxiliary: iterating the requeue step preserves all fields except
`next_timeout`, which advances by one period per iteration. -/
theorem requeueTimer_iterate (t : Timer) (k : Nat) :
    requeueTimer^[k] t =
      { next_timeout := t.next_timeout + k * t.period, period := t.period,
        task := t.task, own_task := t.own_task } := by
  induction k with
  | zero => simp
  | succ n ih =>
    rw [Function.iterate_succ_apply', ih]
    simp [requeueTimer, Nat.succ_mul]
    omega

/-! ### Sum lemmas -/

theorem listSum_congr {f g : Nat → Nat} :
    ∀ {l : List Nat}, (∀ b ∈ l, f b = g b) → listSum f l = listSum g l
  | [], _ => rfl
  | b :: l, h => by
    simp only [listSum]
    rw [h b (List.mem_cons_self b l),
      listSum_congr (fun x hx => h x (List.mem_cons_of_mem b hx))]

theorem listSum_nil (f : Nat → Nat) : listSum f [] = 0 := rfl

theorem listSum_cons (f : Nat → Nat) (b : Nat) (l : List Nat) :
    listSum f (b :: l) = f b + listSum f l := rfl

theorem listSum_perm (f : Nat → Nat) {l l' : List Nat} (h : l.Perm l') :
    listSum f l = listSum f l' := by
  induction h with
  | nil => rfl
  | cons x _ ih => simp only [listSum, ih]
  | swap x y l => simp only [listSum]; omega
  | trans _ _ ih1 ih2 => exact ih1.trans ih2

theorem listSum_append (f : Nat → Nat) (l1 l2 : List Nat) :
    listSum f (l1 ++ l2) = listSum f l1 + listSum f l2 := by
  induction l1 with
  | nil => show listSum f l2 = listSum f [] + listSum f l2; simp [listSum]
  | cons b l ih =>
    show f b + listSum f (l ++ l2) = f b + listSum f l + listSum f l2
    rw [ih]; omega

theorem listSum_extract (f : Nat → Nat) {l : List Nat} {b : Nat} (hb : b ∈ l) :
    listSum f l = f b + listSum f (l.erase b) := by
  rw [listSum_perm f (List.perm_cons_erase hb)]; rfl

theorem listSum_exchange {f g : Nat → Nat} {l : List Nat} {b : Nat}
    (hl : l.Nodup) (hb : b ∈ l) (hfg : ∀ x ∈ l, x ≠ b → f x = g x) :
    listSum g l + f b = listSum f l + g b := by
  have h1 := listSum_extract f hb
  have h2 := listSum_extract g hb
  have h3 : listSum f (l.erase b) = listSum g (l.erase b) := by
    apply listSum_congr
    intro x hx
    exact hfg x (List.mem_of_mem_erase hx) ((hl.mem_erase_iff.mp hx).1)
  omega

theorem updBlock_self (m : Nat → Option ByteBlock) (b : Nat)
    (v : Option ByteBlock) : updBlock m b v b = v := by
  simp [updBlock]

theorem updBlock_ne {m : Nat → Option ByteBlock} {b x : Nat}
    {v : Option ByteBlock} (h : x ≠ b) : updBlock m b v x = m x := by
  simp [updBlock, h]

theorem resBytes_upd_ne {m : Nat → Option ByteBlock} {b x : Nat}
    {v : Option ByteBlock} {r : Residence} (h : x ≠ b) :
    resBytes (updBlock m b v) r x = resBytes m r x := by
  simp [resBytes, updBlock, h]

theorem sizeOf_upd_ne {m : Nat → Option ByteBlock} {b x : Nat}
    {v : Option ByteBlock} (h : x ≠ b) :
    sizeOf (updBlock m b v) x = sizeOf m x := by
  simp [sizeOf, updBlock, h]

theorem listSum_resBytes_upd {m : Nat → Option ByteBlock} {b : Nat}
    {v : Option ByteBlock} {r : Residence} {l : List Nat} (h : b ∉ l) :
    listSum (resBytes (updBlock m b v) r) l = listSum (resBytes m r) l :=
  listSum_congr (fun _x hx => resBytes_upd_ne (fun he => h (he ▸ hx)))

theorem listSum_sizeOf_upd {m : Nat → Option ByteBlock} {b : Nat}
    {v : Option ByteBlock} {l : List Nat} (h : b ∉ l) :
    listSum (sizeOf (updBlock m b v)) l = listSum (sizeOf m) l :=
  listSum_congr (fun _x hx => sizeOf_upd_ne (fun he => h (he ▸ hx)))

theorem resBytes_eq_of_some {m : Nat → Option ByteBlock} {b : Nat}
    {info : ByteBlock} (h : m b = some info) (r : Residence) :
    resBytes m r b = if info.res = r then info.size else 0 := by
  simp [resBytes, h]

theorem sizeOf_eq_of_some {m : Nat → Option ByteBlock} {b : Nat}
    {info : ByteBlock} (h : m b = some info) : sizeOf m b = info.size := by
  simp [sizeOf, h]

theorem listSum_resBytes_upd_all {m : Nat → Option ByteBlock} {b : Nat}
    {v : Option ByteBlock} {r : Residence}
    (h : resBytes (updBlock m b v) r b = resBytes m r b) (l : List Nat) :
    listSum (resBytes (updBlock m b v) r) l = listSum (resBytes m r) l := by
  apply listSum_congr
  intro x _
  by_cases hxb : x = b
  · subst hxb; exact h
  · exact resBytes_upd_ne hxb

theorem getD_eq_zero_of_sum_zero :
    ∀ {l : List Nat}, l.foldr (· + ·) 0 = 0 → ∀ i : Nat, l.getD i 0 = 0
  | [], _, i => by cases i <;> rfl
  | x :: l, h, i => by
    simp only [List.foldr] at h
    cases i with
    | zero => simp; omega
    | succ n =>
      exact getD_eq_zero_of_sum_zero (by omega) n

theorem mem_ids_of_blocks_some {st : BlockPool} (inv : st.Inv) {b : Nat}
    {info : ByteBlock} (h : st.blocks b = some info) : b ∈ st.ids :=
  (inv.dom b).mpr (by simp [h])

theorem not_mem_lru_of_res {st : BlockPool} (inv : st.Inv) {b : Nat}
    {info : ByteBlock} (h : st.blocks b = some info)
    (hres : info.res ≠ Residence.unpinned) : b ∉ st.unpinned_blocks := by
  intro hb
  obtain ⟨i2, h2, hr2, _⟩ := inv.lru_res b hb
  rw [h] at h2
  cases h2
  exact hres hr2

theorem RequestInternalMemory_some {st st1 : BlockPool} {size : Nat}
    (h : st.RequestInternalMemory size = some st1) :
    st1 = { st with requested_bytes := st.requested_bytes + size } ∧
      (st.hard_ram_limit = 0 ∨
        st.total_ram_use + st.requested_bytes + size ≤ st.hard_ram_limit) := by
  unfold BlockPool.RequestInternalMemory at h
  split at h
  · exact ⟨(Option.some.inj h).symm, by assumption⟩
  · cases h

/-- The pool invariant holds in a freshly constructed pool. -/
theorem inv_initial (soft hard W : Nat) : (BlockPool.initial soft hard W).Inv := by
  refine ⟨?_, ?_, ?_, ?_, ?_, ?_, ?_, ?_⟩ <;>
    simp [BlockPool.initial, listSum]

/-- `AllocateByteBlock` preserves the pool invariant. -/
theorem inv_alloc {st st' : BlockPool} {id size w : Nat} (inv : st.Inv)
    (h : st.AllocateByteBlock id size w = some st') : st'.Inv := by
  unfold BlockPool.AllocateByteBlock at h
  cases hid : st.blocks id with
  | some info => rw [hid] at h; cases h
  | none =>
    rw [hid] at h
    by_cases hw : w < st.workers_per_host
    case neg => rw [if_neg hw] at h; cases h
    case pos =>
      rw [if_pos hw] at h
      cases hrim : st.RequestInternalMemory size with
      | none => rw [hrim] at h; cases h
      | some st1 =>
        rw [hrim] at h
        obtain ⟨hst1, -⟩ := RequestInternalMemory_some hrim
        subst hst1
        cases h
        have hid_ids : id ∉ st.ids := fun hmem => (inv.dom id).mp hmem hid
        have hid_lru : id ∉ st.unpinned_blocks :=
          fun hmem => hid_ids (inv.lru_sub id hmem)
        have hupd_self : updBlock st.blocks id
            (some (freshBlock st.workers_per_host w size)) id
              = some (freshBlock st.workers_per_host w size) :=
          updBlock_self _ _ _
        refine ⟨?_, ?_, ?_, ?_, ?_, ?_, ?_, ?_⟩
        · show (id :: st.ids).Nodup
          exact List.nodup_cons.mpr ⟨hid_ids, inv.ids_nodup⟩
        · show st.unpinned_blocks.Nodup
          exact inv.lru_nodup
        · show ∀ b ∈ st.unpinned_blocks, b ∈ id :: st.ids
          intro b hb
          exact List.mem_cons_of_mem id (inv.lru_sub b hb)
        · show ∀ b : Nat, b ∈ id :: st.ids ↔
            updBlock st.blocks id
              (some (freshBlock st.workers_per_host w size)) b ≠ none
          intro b
          by_cases hb : b = id
          · subst hb
            simp [updBlock_self]
          · simp only [List.mem_cons, updBlock_ne hb]
            constructor
            · intro hmem
              rcases hmem with h1 | h2
              · exact absurd h1 hb
              · exact (inv.dom b).mp h2
            · intro hne
              exact Or.inr ((inv.dom b).mpr hne)
        · show ∀ b ∈ st.unpinned_blocks, ∃ info,
            updBlock st.blocks id
              (some (freshBlock st.workers_per_host w size)) b = some info ∧
              info.res = Residence.unpinned ∧ info.totalPins = 0
          intro b hb
          have hbne : b ≠ id := fun he => hid_lru (he ▸ hb)
          rw [updBlock_ne hbne]
          exact inv.lru_res b hb
        · show ∀ b info,
            updBlock st.blocks id
              (some (freshBlock st.workers_per_host w size)) b = some info →
            info.res = Residence.unpinned → b ∈ st.unpinned_blocks
          intro b info hbi hres
          by_cases hbne : b = id
          · subst hbne
            rw [updBlock_self] at hbi
            cases hbi
            cases hres
          · rw [updBlock_ne hbne] at hbi
            exact inv.res_lru b info hbi hres
        · show st.writing_bytes = listSum
            (resBytes (updBlock st.blocks id
              (some (freshBlock st.workers_per_host w size)))
              Residence.writing) (id :: st.ids)
          rw [listSum_cons, listSum_resBytes_upd hid_ids]
          have hz : resBytes (updBlock st.blocks id
              (some (freshBlock st.workers_per_host w size)))
              Residence.writing id = 0 := by
            rw [resBytes, hupd_self]
            simp [freshBlock]
          rw [hz]
          simpa using inv.wbytes
        · show st.total_ram_use + size = listSum
            (sizeOf (updBlock st.blocks id
              (some (freshBlock st.workers_per_host w size))))
              st.unpinned_blocks
            + listSum (resBytes (updBlock st.blocks id
                (some (freshBlock st.workers_per_host w size)))
                Residence.pinned) (id :: st.ids)
            + st.writing_bytes
            + listSum (resBytes (updBlock st.blocks id
                (some (freshBlock st.workers_per_host w size)))
                Residence.reading) (id :: st.ids)
          rw [listSum_cons, listSum_cons, listSum_sizeOf_upd hid_lru,
            listSum_resBytes_upd hid_ids, listSum_resBytes_upd hid_ids]
          have hp : resBytes (updBlock st.blocks id
              (some (freshBlock st.workers_per_host w size)))
              Residence.pinned id = size := by
            rw [resBytes, hupd_self]
            simp [freshBlock]
          have hr : resBytes (updBlock st.blocks id
              (some (freshBlock st.workers_per_host w size)))
              Residence.reading id = 0 := by
            rw [resBytes, hupd_self]
            simp [freshBlock]
          rw [hp, hr]
          have := inv.ram
          omega

/-- Updating only the pin vector of a RAM-pinned block (and the pool pin
counters) preserves the invariant. -/
theorem inv_pins_only {st : BlockPool} {b : Nat} {info : ByteBlock}
    (inv : st.Inv) (hb : st.blocks b = some info)
    (hres : info.res = Residence.pinned) (p : List Nat) (pc : PinCount) :
    BlockPool.Inv { st with
      blocks := updBlock st.blocks b (some { info with pins := p }),
      pin_count := pc } := by
  have hbid : b ∈ st.ids := mem_ids_of_blocks_some inv hb
  have hnl : b ∉ st.unpinned_blocks :=
    not_mem_lru_of_res inv hb (by rw [hres]; decide)
  have hsame : ∀ r : Residence,
      resBytes (updBlock st.blocks b (some { info with pins := p })) r b
        = resBytes st.blocks r b := by
    intro r
    rw [resBytes_eq_of_some (updBlock_self _ _ _), resBytes_eq_of_some hb]
  refine ⟨?_, ?_, ?_, ?_, ?_, ?_, ?_, ?_⟩
  · exact inv.ids_nodup
  · exact inv.lru_nodup
  · exact inv.lru_sub
  · show ∀ x : Nat, x ∈ st.ids ↔
      updBlock st.blocks b (some { info with pins := p }) x ≠ none
    intro x
    by_cases hx : x = b
    · subst hx
      simp [updBlock_self, hbid]
    · rw [updBlock_ne hx]
      exact inv.dom x
  · show ∀ x ∈ st.unpinned_blocks, ∃ i,
      updBlock st.blocks b (some { info with pins := p }) x = some i ∧
        i.res = Residence.unpinned ∧ i.totalPins = 0
    intro x hx
    have hxb : x ≠ b := fun he => hnl (he ▸ hx)
    rw [updBlock_ne hxb]
    exact inv.lru_res x hx
  · show ∀ x i, updBlock st.blocks b (some { info with pins := p }) x = some i →
      i.res = Residence.unpinned → x ∈ st.unpinned_blocks
    intro x i hxi hxres
    by_cases hxb : x = b
    · subst hxb
      rw [updBlock_self] at hxi
      cases hxi
      rw [hres] at hxres
      cases hxres
    · rw [updBlock_ne hxb] at hxi
      exact inv.res_lru x i hxi hxres
  · show st.writing_bytes = listSum
      (resBytes (updBlock st.blocks b (some { info with pins := p }))
        Residence.writing) st.ids
    rw [listSum_resBytes_upd_all (hsame _)]
    exact inv.wbytes
  · show st.total_ram_use = listSum
        (sizeOf (updBlock st.blocks b (some { info with pins := p })))
        st.unpinned_blocks
      + listSum (resBytes (updBlock st.blocks b (some { info with pins := p }))
          Residence.pinned) st.ids
      + st.writing_bytes
      + listSum (resBytes (updBlock st.blocks b (some { info with pins := p }))
          Residence.reading) st.ids
    rw [listSum_sizeOf_upd hnl, listSum_resBytes_upd_all (hsame _),
      listSum_resBytes_upd_all (hsame _)]
    exact inv.ram

/-- `IncBlockPinCount` preserves the pool invariant. -/
theorem inv_incPin {st st' : BlockPool} {b w : Nat} (inv : st.Inv)
    (h : st.IncBlockPinCount b w = some st') : st'.Inv := by
  unfold BlockPool.IncBlockPinCount at h
  split at h
  · cases h
  next info hb =>
    split at h
    next hg =>
      cases h
      exact inv_pins_only inv hb hg.1 _ _
    next => cases h

/-- `EvictBlock` preserves the pool invariant. -/
theorem inv_evict {st st' : BlockPool} {b : Nat} (inv : st.Inv)
    (h : st.EvictBlock = some (b, st')) : st'.Inv := by
  unfold BlockPool.EvictBlock at h
  split at h
  · cases h
  next b0 rest hl =>
    split at h
    · cases h
    next info hb =>
      cases h
      have hmem : b ∈ st.unpinned_blocks := by
        rw [hl]; exact List.mem_cons_self b rest
      have hbid : b ∈ st.ids := inv.lru_sub b hmem
      obtain ⟨info2, hbi2, hres, hpz⟩ := inv.lru_res b hmem
      rw [hb] at hbi2
      cases hbi2
      have hnodup : (b :: rest).Nodup := hl ▸ inv.lru_nodup
      have hbrest : b ∉ rest := (List.nodup_cons.mp hnodup).1
      refine ⟨?_, ?_, ?_, ?_, ?_, ?_, ?_, ?_⟩
      · exact inv.ids_nodup
      · show rest.Nodup
        exact (List.nodup_cons.mp hnodup).2
      · show ∀ x ∈ rest, x ∈ st.ids
        intro x hx
        refine inv.lru_sub x ?_
        rw [hl]
        exact List.mem_cons_of_mem b hx
      · show ∀ x : Nat, x ∈ st.ids ↔
          updBlock st.blocks b (some { info with res := Residence.writing }) x ≠ none
        intro x
        by_cases hx : x = b
        · subst hx
          simp [updBlock_self, hbid]
        · rw [updBlock_ne hx]
          exact inv.dom x
      · show ∀ x ∈ rest, ∃ i,
          updBlock st.blocks b (some { info with res := Residence.writing }) x
            = some i ∧ i.res = Residence.unpinned ∧ i.totalPins = 0
        intro x hx
        have hxb : x ≠ b := fun he => hbrest (he ▸ hx)
        rw [updBlock_ne hxb]
        refine inv.lru_res x ?_
        rw [hl]
        exact List.mem_cons_of_mem b hx
      · show ∀ x i,
          updBlock st.blocks b (some { info with res := Residence.writing }) x
            = some i → i.res = Residence.unpinned → x ∈ rest
        intro x i hxi hxres
        by_cases hxb : x = b
        · subst hxb
          rw [updBlock_self] at hxi
          cases hxi
          cases hxres
        · rw [updBlock_ne hxb] at hxi
          have := inv.res_lru x i hxi hxres
          rw [hl] at this
          rcases List.mem_cons.mp this with he | hm
          · exact absurd he hxb
          · exact hm
      · show st.writing_bytes + info.size = listSum
          (resBytes (updBlock st.blocks b
            (some { info with res := Residence.writing }))
            Residence.writing) st.ids
        have hex := listSum_exchange (f := resBytes st.blocks Residence.writing)
          (g := resBytes (updBlock st.blocks b
            (some { info with res := Residence.writing })) Residence.writing)
          inv.ids_nodup hbid
          (fun x _ hxb => (resBytes_upd_ne hxb).symm)
        have hold : resBytes st.blocks Residence.writing b = 0 := by
          rw [resBytes_eq_of_some hb, hres]
          simp
        have hnew : resBytes (updBlock st.blocks b
            (some { info with res := Residence.writing }))
            Residence.writing b = info.size := by
          rw [resBytes_eq_of_some (updBlock_self _ _ _)]
          simp
        have := inv.wbytes
        omega
      · show st.total_ram_use = listSum
            (sizeOf (updBlock st.blocks b
              (some { info with res := Residence.writing }))) rest
          + listSum (resBytes (updBlock st.blocks b
              (some { info with res := Residence.writing }))
              Residence.pinned) st.ids
          + (st.writing_bytes + info.size)
          + listSum (resBytes (updBlock st.blocks b
              (some { info with res := Residence.writing }))
              Residence.reading) st.ids
        have h1 : listSum (sizeOf (updBlock st.blocks b
            (some { info with res := Residence.writing }))) rest
              = listSum (sizeOf st.blocks) rest := listSum_sizeOf_upd hbrest
        have h2 : listSum (resBytes (updBlock st.blocks b
            (some { info with res := Residence.writing }))
            Residence.pinned) st.ids
              = listSum (resBytes st.blocks Residence.pinned) st.ids := by
          apply listSum_resBytes_upd_all
          rw [resBytes_eq_of_some (updBlock_self _ _ _), resBytes_eq_of_some hb,
            hres]
          simp
        have h3 : listSum (resBytes (updBlock st.blocks b
            (some { info with res := Residence.writing }))
            Residence.reading) st.ids
              = listSum (resBytes st.blocks Residence.reading) st.ids := by
          apply listSum_resBytes_upd_all
          rw [resBytes_eq_of_some (updBlock_self _ _ _), resBytes_eq_of_some hb,
            hres]
          simp
        have hram := inv.ram
        rw [hl, listSum_cons, sizeOf_eq_of_some hb] at hram
        omega

/-- `evictLoop` preserves the pool invariant. -/
theorem inv_evictLoop :
    ∀ (fuel : Nat) {st : BlockPool}, st.Inv → (BlockPool.evictLoop fuel st).Inv
  | 0, _, inv => inv
  | fuel + 1, st, inv => by
    unfold BlockPool.evictLoop
    split
    · cases he : st.EvictBlock with
      | none => exact inv
      | some p =>
        obtain ⟨b1, st1⟩ := p
        exact inv_evictLoop fuel (inv_evict inv he)
    · exact inv

/-- `DecBlockPinCount` preserves the pool invariant. -/
theorem inv_decPin {st st' : BlockPool} {b w : Nat} (inv : st.Inv)
    (h : st.DecBlockPinCount b w = some st') : st'.Inv := by
  unfold BlockPool.DecBlockPinCount at h
  split at h
  · cases h
  next info hb =>
    split at h
    next hg =>
      split at h
      next hz =>
        cases h
        refine inv_evictLoop _ ?_
        have hbid : b ∈ st.ids := mem_ids_of_blocks_some inv hb
        have hnl : b ∉ st.unpinned_blocks :=
          not_mem_lru_of_res inv hb (by rw [hg.1]; decide)
        refine ⟨?_, ?_, ?_, ?_, ?_, ?_, ?_, ?_⟩
        · exact inv.ids_nodup
        · show (st.unpinned_blocks ++ [b]).Nodup
          refine List.Nodup.append inv.lru_nodup (List.nodup_singleton b) ?_
          intro x hx hxb
          rw [List.mem_singleton] at hxb
          exact hnl (hxb ▸ hx)
        · show ∀ x ∈ st.unpinned_blocks ++ [b], x ∈ st.ids
          intro x hx
          rcases List.mem_append.mp hx with hx1 | hx2
          · exact inv.lru_sub x hx1
          · rw [List.mem_singleton] at hx2
            exact hx2 ▸ hbid
        · show ∀ x : Nat, x ∈ st.ids ↔ updBlock st.blocks b
            (some { info with pins := listSub info.pins w 1, res := Residence.unpinned }) x ≠ none
          intro x
          by_cases hx : x = b
          · subst hx
            simp [updBlock_self, hbid]
          · rw [updBlock_ne hx]
            exact inv.dom x
        · show ∀ x ∈ st.unpinned_blocks ++ [b], ∃ i, updBlock st.blocks b
            (some { info with pins := listSub info.pins w 1, res := Residence.unpinned }) x = some i ∧
            i.res = Residence.unpinned ∧ i.totalPins = 0
          intro x hx
          rcases List.mem_append.mp hx with hx1 | hx2
          · have hxb : x ≠ b := fun he => hnl (he ▸ hx1)
            rw [updBlock_ne hxb]
            exact inv.lru_res x hx1
          · rw [List.mem_singleton] at hx2
            subst hx2
            rw [updBlock_self]
            exact ⟨_, rfl, rfl, hz⟩
        · show ∀ x i, updBlock st.blocks b
            (some { info with pins := listSub info.pins w 1, res := Residence.unpinned }) x = some i →
            i.res = Residence.unpinned → x ∈ st.unpinned_blocks ++ [b]
          intro x i hxi hxres
          by_cases hx : x = b
          · subst hx
            exact List.mem_append.mpr (Or.inr (List.mem_singleton.mpr rfl))
          · rw [updBlock_ne hx] at hxi
            exact List.mem_append.mpr (Or.inl (inv.res_lru x i hxi hxres))
        · show st.writing_bytes = listSum (resBytes (updBlock st.blocks b
            (some { info with pins := listSub info.pins w 1, res := Residence.unpinned })) Residence.writing) st.ids
          rw [listSum_resBytes_upd_all (by
            rw [resBytes_eq_of_some (updBlock_self _ _ _),
              resBytes_eq_of_some hb, hg.1]
            simp)]
          exact inv.wbytes
        · show st.total_ram_use = listSum (sizeOf (updBlock st.blocks b
              (some { info with pins := listSub info.pins w 1, res := Residence.unpinned }))) (st.unpinned_blocks ++ [b])
            + listSum (resBytes (updBlock st.blocks b
              (some { info with pins := listSub info.pins w 1, res := Residence.unpinned })) Residence.pinned) st.ids
            + st.writing_bytes
            + listSum (resBytes (updBlock st.blocks b
              (some { info with pins := listSub info.pins w 1, res := Residence.unpinned })) Residence.reading) st.ids
          have e1 : listSum (sizeOf (updBlock st.blocks b
              (some { info with pins := listSub info.pins w 1, res := Residence.unpinned }))) st.unpinned_blocks
                = listSum (sizeOf st.blocks) st.unpinned_blocks :=
            listSum_sizeOf_upd hnl
          have e2 : sizeOf (updBlock st.blocks b
              (some { info with pins := listSub info.pins w 1, res := Residence.unpinned })) b = info.size := by
            rw [sizeOf_eq_of_some (updBlock_self _ _ _)]
          have e3 := listSum_exchange
            (f := resBytes st.blocks Residence.pinned)
            (g := resBytes (updBlock st.blocks b
              (some { info with pins := listSub info.pins w 1, res := Residence.unpinned })) Residence.pinned)
            inv.ids_nodup hbid
            (fun x _ hxb => (resBytes_upd_ne hxb).symm)
          have e4 : resBytes st.blocks Residence.pinned b = info.size := by
            rw [resBytes_eq_of_some hb, hg.1]
            simp
          have e5 : resBytes (updBlock st.blocks b
              (some { info with pins := listSub info.pins w 1, res := Residence.unpinned })) Residence.pinned b = 0 := by
            rw [resBytes_eq_of_some (updBlock_self _ _ _)]
            simp
          have e6 : listSum (resBytes (updBlock st.blocks b
              (some { info with pins := listSub info.pins w 1, res := Residence.unpinned })) Residence.reading) st.ids
                = listSum (resBytes st.blocks Residence.reading) st.ids := by
            apply listSum_resBytes_upd_all
            rw [resBytes_eq_of_some (updBlock_self _ _ _),
              resBytes_eq_of_some hb, hg.1]
            simp
          have hram := inv.ram
          rw [listSum_append, listSum_cons, listSum_nil]
          omega
      next hz =>
        cases h
        exact inv_pins_only inv hb hg.1 _ _
    next => cases h

/-- `OnWriteComplete` preserves the pool invariant. -/
theorem inv_onWrite {st st' : BlockPool} {b : Nat} (inv : st.Inv)
    (h : st.OnWriteComplete b = some st') : st'.Inv := by
  unfold BlockPool.OnWriteComplete at h
  split at h
  · cases h
  next info hb =>
    split at h
    next hres =>
      cases h
      have hbid : b ∈ st.ids := mem_ids_of_blocks_some inv hb
      have hnl : b ∉ st.unpinned_blocks :=
        not_mem_lru_of_res inv hb (by rw [hres]; decide)
      have hexw := listSum_exchange
        (f := resBytes st.blocks Residence.writing)
        (g := resBytes (updBlock st.blocks b
          (some { info with res := Residence.swapped })) Residence.writing)
        inv.ids_nodup hbid
        (fun x _ hxb => (resBytes_upd_ne hxb).symm)
      have eold : resBytes st.blocks Residence.writing b = info.size := by
        rw [resBytes_eq_of_some hb, hres]
        simp
      have enew : resBytes (updBlock st.blocks b
          (some { info with res := Residence.swapped }))
          Residence.writing b = 0 := by
        rw [resBytes_eq_of_some (updBlock_self _ _ _)]
        simp
      refine ⟨?_, ?_, ?_, ?_, ?_, ?_, ?_, ?_⟩
      · exact inv.ids_nodup
      · exact inv.lru_nodup
      · exact inv.lru_sub
      · show ∀ x : Nat, x ∈ st.ids ↔ updBlock st.blocks b
          (some { info with res := Residence.swapped }) x ≠ none
        intro x
        by_cases hx : x = b
        · subst hx
          simp [updBlock_self, hbid]
        · rw [updBlock_ne hx]
          exact inv.dom x
      · show ∀ x ∈ st.unpinned_blocks, ∃ i, updBlock st.blocks b
          (some { info with res := Residence.swapped }) x = some i ∧
          i.res = Residence.unpinned ∧ i.totalPins = 0
        intro x hx
        have hxb : x ≠ b := fun he => hnl (he ▸ hx)
        rw [updBlock_ne hxb]
        exact inv.lru_res x hx
      · show ∀ x i, updBlock st.blocks b
          (some { info with res := Residence.swapped }) x = some i →
          i.res = Residence.unpinned → x ∈ st.unpinned_blocks
        intro x i hxi hxres
        by_cases hx : x = b
        · subst hx
          rw [updBlock_self] at hxi
          cases hxi
          cases hxres
        · rw [updBlock_ne hx] at hxi
          exact inv.res_lru x i hxi hxres
      · show st.writing_bytes - info.size = listSum (resBytes (updBlock
          st.blocks b (some { info with res := Residence.swapped }))
          Residence.writing) st.ids
        have := inv.wbytes
        omega
      · show st.total_ram_use - info.size = listSum (sizeOf (updBlock
            st.blocks b (some { info with res := Residence.swapped })))
            st.unpinned_blocks
          + listSum (resBytes (updBlock st.blocks b
            (some { info with res := Residence.swapped }))
            Residence.pinned) st.ids
          + (st.writing_bytes - info.size)
          + listSum (resBytes (updBlock st.blocks b
            (some { info with res := Residence.swapped }))
            Residence.reading) st.ids
        have e1 : listSum (sizeOf (updBlock st.blocks b
            (some { info with res := Residence.swapped }))) st.unpinned_blocks
              = listSum (sizeOf st.blocks) st.unpinned_blocks :=
          listSum_sizeOf_upd hnl
        have e2 : listSum (resBytes (updBlock st.blocks b
            (some { info with res := Residence.swapped }))
            Residence.pinned) st.ids
              = listSum (resBytes st.blocks Residence.pinned) st.ids := by
          apply listSum_resBytes_upd_all
          rw [resBytes_eq_of_some (updBlock_self _ _ _),
            resBytes_eq_of_some hb, hres]
          simp
        have e3 : listSum (resBytes (updBlock st.blocks b
            (some { info with res := Residence.swapped }))
            Residence.reading) st.ids
              = listSum (resBytes st.blocks Residence.reading) st.ids := by
          apply listSum_resBytes_upd_all
          rw [resBytes_eq_of_some (updBlock_self _ _ _),
            resBytes_eq_of_some hb, hres]
          simp
        have hram := inv.ram
        have hwb := inv.wbytes
        omega
    next => cases h

/-- `PinBlock` preserves the pool invariant. -/
theorem inv_pin {st st' : BlockPool} {b w : Nat} {r : PinResult} (inv : st.Inv)
    (h : st.PinBlock b w = some (st', r)) : st'.Inv := by
  unfold BlockPool.PinBlock at h
  split at h
  · cases h
  next info hb =>
    split at h
    next hw =>
      split at h
      next hres =>
        cases h
        exact inv_pins_only inv hb hres _ _
      next hres =>
        cases h
        have hbid : b ∈ st.ids := mem_ids_of_blocks_some inv hb
        have hblru : b ∈ st.unpinned_blocks := inv.res_lru b info hb hres
        have hberase : b ∉ st.unpinned_blocks.erase b := fun hx =>
          ((inv.lru_nodup.mem_erase_iff).mp hx).1 rfl
        refine ⟨?_, ?_, ?_, ?_, ?_, ?_, ?_, ?_⟩
        · exact inv.ids_nodup
        · show (st.unpinned_blocks.erase b).Nodup
          exact inv.lru_nodup.erase b
        · show ∀ x ∈ st.unpinned_blocks.erase b, x ∈ st.ids
          intro x hx
          exact inv.lru_sub x (List.mem_of_mem_erase hx)
        · show ∀ x : Nat, x ∈ st.ids ↔ updBlock st.blocks b (some { info with pins := listAdd info.pins w 1, res := Residence.pinned }) x ≠ none
          intro x
          by_cases hx : x = b
          · subst hx
            simp [updBlock_self, hbid]
          · rw [updBlock_ne hx]
            exact inv.dom x
        · show ∀ x ∈ st.unpinned_blocks.erase b, ∃ i, updBlock st.blocks b (some { info with pins := listAdd info.pins w 1, res := Residence.pinned }) x = some i ∧ i.res = Residence.unpinned ∧ i.totalPins = 0
          intro x hx
          obtain ⟨hxb, hxl⟩ := (inv.lru_nodup.mem_erase_iff).mp hx
          rw [updBlock_ne hxb]
          exact inv.lru_res x hxl
        · show ∀ x i, updBlock st.blocks b (some { info with pins := listAdd info.pins w 1, res := Residence.pinned }) x = some i → i.res = Residence.unpinned → x ∈ st.unpinned_blocks.erase b
          intro x i hxi hxres
          by_cases hx : x = b
          · subst hx
            rw [updBlock_self] at hxi
            cases hxi
            cases hxres
          · rw [updBlock_ne hx] at hxi
            exact (inv.lru_nodup.mem_erase_iff).mpr
              ⟨hx, inv.res_lru x i hxi hxres⟩
        · show st.writing_bytes = listSum (resBytes (updBlock st.blocks b (some { info with pins := listAdd info.pins w 1, res := Residence.pinned })) Residence.writing) st.ids
          rw [listSum_resBytes_upd_all (by
            rw [resBytes_eq_of_some (updBlock_self _ _ _),
              resBytes_eq_of_some hb, hres]
            simp)]
          exact inv.wbytes
        · show st.total_ram_use = listSum (sizeOf (updBlock st.blocks b (some { info with pins := listAdd info.pins w 1, res := Residence.pinned }))) (st.unpinned_blocks.erase b) + listSum (resBytes (updBlock st.blocks b (some { info with pins := listAdd info.pins w 1, res := Residence.pinned })) Residence.pinned) st.ids + st.writing_bytes + listSum (resBytes (updBlock st.blocks b (some { info with pins := listAdd info.pins w 1, res := Residence.pinned })) Residence.reading) st.ids
          have e1 : listSum (sizeOf (updBlock st.blocks b (some { info with pins := listAdd info.pins w 1, res := Residence.pinned }))) (st.unpinned_blocks.erase b) = listSum (sizeOf st.blocks) (st.unpinned_blocks.erase b) :=
            listSum_sizeOf_upd hberase
          have e2 : listSum (sizeOf st.blocks) st.unpinned_blocks = sizeOf st.blocks b + listSum (sizeOf st.blocks) (st.unpinned_blocks.erase b) :=
            listSum_extract _ hblru
          have e2b : sizeOf st.blocks b = info.size := sizeOf_eq_of_some hb
          have e3 := listSum_exchange
            (f := resBytes st.blocks Residence.pinned)
            (g := resBytes (updBlock st.blocks b (some { info with pins := listAdd info.pins w 1, res := Residence.pinned })) Residence.pinned)
            inv.ids_nodup hbid
            (fun x _ hxb => (resBytes_upd_ne hxb).symm)
          have e4 : resBytes st.blocks Residence.pinned b = 0 := by
            rw [resBytes_eq_of_some hb, hres]
            simp
          have e5 : resBytes (updBlock st.blocks b (some { info with pins := listAdd info.pins w 1, res := Residence.pinned })) Residence.pinned b = info.size := by
            rw [resBytes_eq_of_some (updBlock_self _ _ _)]
            simp
          have e6 : listSum (resBytes (updBlock st.blocks b (some { info with pins := listAdd info.pins w 1, res := Residence.pinned })) Residence.reading) st.ids = listSum (resBytes st.blocks Residence.reading) st.ids := by
            apply listSum_resBytes_upd_all
            rw [resBytes_eq_of_some (updBlock_self _ _ _),
              resBytes_eq_of_some hb, hres]
            simp
          have hram := inv.ram
          omega
      next hres =>
        cases h
        have hbid : b ∈ st.ids := mem_ids_of_blocks_some inv hb
        have hnl : b ∉ st.unpinned_blocks :=
          not_mem_lru_of_res inv hb (by rw [hres]; decide)
        have hexw := listSum_exchange
          (f := resBytes st.blocks Residence.writing)
          (g := resBytes (updBlock st.blocks b (some { info with pins := listAdd info.pins w 1, res := Residence.pinned })) Residence.writing)
          inv.ids_nodup hbid
          (fun x _ hxb => (resBytes_upd_ne hxb).symm)
        have eold : resBytes st.blocks Residence.writing b = info.size := by
          rw [resBytes_eq_of_some hb, hres]
          simp
        have enew : resBytes (updBlock st.blocks b (some { info with pins := listAdd info.pins w 1, res := Residence.pinned })) Residence.writing b = 0 := by
          rw [resBytes_eq_of_some (updBlock_self _ _ _)]
          simp
        refine ⟨?_, ?_, ?_, ?_, ?_, ?_, ?_, ?_⟩
        · exact inv.ids_nodup
        · exact inv.lru_nodup
        · exact inv.lru_sub
        · show ∀ x : Nat, x ∈ st.ids ↔ updBlock st.blocks b (some { info with pins := listAdd info.pins w 1, res := Residence.pinned }) x ≠ none
          intro x
          by_cases hx : x = b
          · subst hx
            simp [updBlock_self, hbid]
          · rw [updBlock_ne hx]
            exact inv.dom x
        · show ∀ x ∈ st.unpinned_blocks, ∃ i, updBlock st.blocks b (some { info with pins := listAdd info.pins w 1, res := Residence.pinned }) x = some i ∧ i.res = Residence.unpinned ∧ i.totalPins = 0
          intro x hx
          have hxb : x ≠ b := fun he => hnl (he ▸ hx)
          rw [updBlock_ne hxb]
          exact inv.lru_res x hx
        · show ∀ x i, updBlock st.blocks b (some { info with pins := listAdd info.pins w 1, res := Residence.pinned }) x = some i → i.res = Residence.unpinned → x ∈ st.unpinned_blocks
          intro x i hxi hxres
          by_cases hx : x = b
          · subst hx
            rw [updBlock_self] at hxi
            cases hxi
            cases hxres
          · rw [updBlock_ne hx] at hxi
            exact inv.res_lru x i hxi hxres
        · show st.writing_bytes - info.size = listSum (resBytes (updBlock st.blocks b (some { info with pins := listAdd info.pins w 1, res := Residence.pinned })) Residence.writing) st.ids
          have := inv.wbytes
          omega
        · show st.total_ram_use = listSum (sizeOf (updBlock st.blocks b (some { info with pins := listAdd info.pins w 1, res := Residence.pinned }))) st.unpinned_blocks + listSum (resBytes (updBlock st.blocks b (some { info with pins := listAdd info.pins w 1, res := Residence.pinned })) Residence.pinned) st.ids + (st.writing_bytes - info.size) + listSum (resBytes (updBlock st.blocks b (some { info with pins := listAdd info.pins w 1, res := Residence.pinned })) Residence.reading) st.ids
          have e1 : listSum (sizeOf (updBlock st.blocks b (some { info with pins := listAdd info.pins w 1, res := Residence.pinned }))) st.unpinned_blocks = listSum (sizeOf st.blocks) st.unpinned_blocks :=
            listSum_sizeOf_upd hnl
          have e3 := listSum_exchange
            (f := resBytes st.blocks Residence.pinned)
            (g := resBytes (updBlock st.blocks b (some { info with pins := listAdd info.pins w 1, res := Residence.pinned })) Residence.pinned)
            inv.ids_nodup hbid
            (fun x _ hxb => (resBytes_upd_ne hxb).symm)
          have e4 : resBytes st.blocks Residence.pinned b = 0 := by
            rw [resBytes_eq_of_some hb, hres]
            simp
          have e5 : resBytes (updBlock st.blocks b (some { info with pins := listAdd info.pins w 1, res := Residence.pinned })) Residence.pinned b = info.size := by
            rw [resBytes_eq_of_some (updBlock_self _ _ _)]
            simp
          have e6 : listSum (resBytes (updBlock st.blocks b (some { info with pins := listAdd info.pins w 1, res := Residence.pinned })) Residence.reading) st.ids = listSum (resBytes st.blocks Residence.reading) st.ids := by
            apply listSum_resBytes_upd_all
            rw [resBytes_eq_of_some (updBlock_self _ _ _),
              resBytes_eq_of_some hb, hres]
            simp
          have hram := inv.ram
          have hwb := inv.wbytes
          omega
      next hres =>
        split at h
        · cases h
        next st1 hrim =>
          obtain ⟨hst1, -⟩ := RequestInternalMemory_some hrim
          subst hst1
          cases h
          have hbid : b ∈ st.ids := mem_ids_of_blocks_some inv hb
          have hnl : b ∉ st.unpinned_blocks :=
            not_mem_lru_of_res inv hb (by rw [hres]; decide)
          refine ⟨?_, ?_, ?_, ?_, ?_, ?_, ?_, ?_⟩
          · exact inv.ids_nodup
          · exact inv.lru_nodup
          · exact inv.lru_sub
          · show ∀ x : Nat, x ∈ st.ids ↔ updBlock st.blocks b (some { info with res := Residence.reading }) x ≠ none
            intro x
            by_cases hx : x = b
            · subst hx
              simp [updBlock_self, hbid]
            · rw [updBlock_ne hx]
              exact inv.dom x
          · show ∀ x ∈ st.unpinned_blocks, ∃ i, updBlock st.blocks b (some { info with res := Residence.reading }) x = some i ∧ i.res = Residence.unpinned ∧ i.totalPins = 0
            intro x hx
            have hxb : x ≠ b := fun he => hnl (he ▸ hx)
            rw [updBlock_ne hxb]
            exact inv.lru_res x hx
          · show ∀ x i, updBlock st.blocks b (some { info with res := Residence.reading }) x = some i → i.res = Residence.unpinned → x ∈ st.unpinned_blocks
            intro x i hxi hxres
            by_cases hx : x = b
            · subst hx
              rw [updBlock_self] at hxi
              cases hxi
              cases hxres
            · rw [updBlock_ne hx] at hxi
              exact inv.res_lru x i hxi hxres
          · show st.writing_bytes = listSum (resBytes (updBlock st.blocks b (some { info with res := Residence.reading })) Residence.writing) st.ids
            rw [listSum_resBytes_upd_all (by
              rw [resBytes_eq_of_some (updBlock_self _ _ _),
                resBytes_eq_of_some hb, hres]
              simp)]
            exact inv.wbytes
          · show st.total_ram_use + info.size = listSum (sizeOf (updBlock st.blocks b (some { info with res := Residence.reading }))) st.unpinned_blocks + listSum (resBytes (updBlock st.blocks b (some { info with res := Residence.reading })) Residence.pinned) st.ids + st.writing_bytes + listSum (resBytes (updBlock st.blocks b (some { info with res := Residence.reading })) Residence.reading) st.ids
            have e1 : listSum (sizeOf (updBlock st.blocks b (some { info with res := Residence.reading }))) st.unpinned_blocks = listSum (sizeOf st.blocks) st.unpinned_blocks :=
              listSum_sizeOf_upd hnl
            have e2 : listSum (resBytes (updBlock st.blocks b (some { info with res := Residence.reading })) Residence.pinned) st.ids = listSum (resBytes st.blocks Residence.pinned) st.ids := by
              apply listSum_resBytes_upd_all
              rw [resBytes_eq_of_some (updBlock_self _ _ _),
                resBytes_eq_of_some hb, hres]
              simp
            have e3 := listSum_exchange
              (f := resBytes st.blocks Residence.reading)
              (g := resBytes (updBlock st.blocks b (some { info with res := Residence.reading })) Residence.reading)
              inv.ids_nodup hbid
              (fun x _ hxb => (resBytes_upd_ne hxb).symm)
            have e4 : resBytes st.blocks Residence.reading b = 0 := by
              rw [resBytes_eq_of_some hb, hres]
              simp
            have e5 : resBytes (updBlock st.blocks b (some { info with res := Residence.reading })) Residence.reading b = info.size := by
              rw [resBytes_eq_of_some (updBlock_self _ _ _)]
              simp
            have hram := inv.ram
            omega
      next hres =>
        cases h
        exact ⟨inv.ids_nodup, inv.lru_nodup, inv.lru_sub, inv.dom,
          inv.lru_res, inv.res_lru, inv.wbytes, inv.ram⟩
    next => cases h

/-- `OnReadComplete` preserves the pool invariant. -/
theorem inv_onRead {st st' : BlockPool} {b : Nat} {rs : List PinResult}
    (inv : st.Inv) (h : st.OnReadComplete b = some (st', rs)) : st'.Inv := by
  unfold BlockPool.OnReadComplete at h
  split at h
  · cases h
  next info hb =>
    split at h
    next hres =>
      cases h
      have hbid : b ∈ st.ids := mem_ids_of_blocks_some inv hb
      have hnl : b ∉ st.unpinned_blocks :=
        not_mem_lru_of_res inv hb (by rw [hres]; decide)
      refine ⟨?_, ?_, ?_, ?_, ?_, ?_, ?_, ?_⟩
      · exact inv.ids_nodup
      · exact inv.lru_nodup
      · exact inv.lru_sub
      · show ∀ x : Nat, x ∈ st.ids ↔ updBlock st.blocks b (some { info with res := Residence.pinned, pins := (st.promises b).foldr (fun w pins => listAdd pins w 1) info.pins }) x ≠ none
        intro x
        by_cases hx : x = b
        · subst hx
          simp [updBlock_self, hbid]
        · rw [updBlock_ne hx]
          exact inv.dom x
      · show ∀ x ∈ st.unpinned_blocks, ∃ i, updBlock st.blocks b (some { info with res := Residence.pinned, pins := (st.promises b).foldr (fun w pins => listAdd pins w 1) info.pins }) x = some i ∧ i.res = Residence.unpinned ∧ i.totalPins = 0
        intro x hx
        have hxb : x ≠ b := fun he => hnl (he ▸ hx)
        rw [updBlock_ne hxb]
        exact inv.lru_res x hx
      · show ∀ x i, updBlock st.blocks b (some { info with res := Residence.pinned, pins := (st.promises b).foldr (fun w pins => listAdd pins w 1) info.pins }) x = some i → i.res = Residence.unpinned → x ∈ st.unpinned_blocks
        intro x i hxi hxres
        by_cases hx : x = b
        · subst hx
          rw [updBlock_self] at hxi
          cases hxi
          cases hxres
        · rw [updBlock_ne hx] at hxi
          exact inv.res_lru x i hxi hxres
      · show st.writing_bytes = listSum (resBytes (updBlock st.blocks b (some { info with res := Residence.pinned, pins := (st.promises b).foldr (fun w pins => listAdd pins w 1) info.pins })) Residence.writing) st.ids
        rw [listSum_resBytes_upd_all (by
          rw [resBytes_eq_of_some (updBlock_self _ _ _),
            resBytes_eq_of_some hb, hres]
          simp)]
        exact inv.wbytes
      · show st.total_ram_use = listSum (sizeOf (updBlock st.blocks b (some { info with res := Residence.pinned, pins := (st.promises b).foldr (fun w pins => listAdd pins w 1) info.pins }))) st.unpinned_blocks + listSum (resBytes (updBlock st.blocks b (some { info with res := Residence.pinned, pins := (st.promises b).foldr (fun w pins => listAdd pins w 1) info.pins })) Residence.pinned) st.ids + st.writing_bytes + listSum (resBytes (updBlock st.blocks b (some { info with res := Residence.pinned, pins := (st.promises b).foldr (fun w pins => listAdd pins w 1) info.pins })) Residence.reading) st.ids
        have e1 : listSum (sizeOf (updBlock st.blocks b (some { info with res := Residence.pinned, pins := (st.promises b).foldr (fun w pins => listAdd pins w 1) info.pins }))) st.unpinned_blocks = listSum (sizeOf st.blocks) st.unpinned_blocks :=
          listSum_sizeOf_upd hnl
        have e3 := listSum_exchange
          (f := resBytes st.blocks Residence.pinned)
          (g := resBytes (updBlock st.blocks b (some { info with res := Residence.pinned, pins := (st.promises b).foldr (fun w pins => listAdd pins w 1) info.pins })) Residence.pinned)
          inv.ids_nodup hbid
          (fun x _ hxb => (resBytes_upd_ne hxb).symm)
        have e4 : resBytes st.blocks Residence.pinned b = 0 := by
          rw [resBytes_eq_of_some hb, hres]
          simp
        have e5 : resBytes (updBlock st.blocks b (some { info with res := Residence.pinned, pins := (st.promises b).foldr (fun w pins => listAdd pins w 1) info.pins })) Residence.pinned b = info.size := by
          rw [resBytes_eq_of_some (updBlock_self _ _ _)]
          simp
        have e6 := listSum_exchange
          (f := resBytes st.blocks Residence.reading)
          (g := resBytes (updBlock st.blocks b (some { info with res := Residence.pinned, pins := (st.promises b).foldr (fun w pins => listAdd pins w 1) info.pins })) Residence.reading)
          inv.ids_nodup hbid
          (fun x _ hxb => (resBytes_upd_ne hxb).symm)
        have e7 : resBytes st.blocks Residence.reading b = info.size := by
          rw [resBytes_eq_of_some hb, hres]
          simp
        have e8 : resBytes (updBlock st.blocks b (some { info with res := Residence.pinned, pins := (st.promises b).foldr (fun w pins => listAdd pins w 1) info.pins })) Residence.reading b = 0 := by
          rw [resBytes_eq_of_some (updBlock_self _ _ _)]
          simp
        have hram := inv.ram
        omega
    next => cases h

/-- `DestroyBlock` preserves the pool invariant. -/
theorem inv_destroy {st st' : BlockPool} {b : Nat} (inv : st.Inv)
    (h : st.DestroyBlock b = some st') : st'.Inv := by
  unfold BlockPool.DestroyBlock at h
  split at h
  · cases h
  next info hb =>
    split at h
    next hpz =>
      split at h
      next hres =>
        cases h
        have hbid : b ∈ st.ids := mem_ids_of_blocks_some inv hb
        have hblru : b ∈ st.unpinned_blocks := inv.res_lru b info hb hres
        have hberase : b ∉ st.unpinned_blocks.erase b := fun hx =>
          ((inv.lru_nodup.mem_erase_iff).mp hx).1 rfl
        have hbideras : b ∉ st.ids.erase b := fun hx =>
          ((inv.ids_nodup.mem_erase_iff).mp hx).1 rfl
        refine ⟨?_, ?_, ?_, ?_, ?_, ?_, ?_, ?_⟩
        · show (st.ids.erase b).Nodup
          exact inv.ids_nodup.erase b
        · show (st.unpinned_blocks.erase b).Nodup
          exact inv.lru_nodup.erase b
        · show ∀ x ∈ st.unpinned_blocks.erase b, x ∈ st.ids.erase b
          intro x hx
          obtain ⟨hxb, hxl⟩ := (inv.lru_nodup.mem_erase_iff).mp hx
          exact (inv.ids_nodup.mem_erase_iff).mpr ⟨hxb, inv.lru_sub x hxl⟩
        · show ∀ x : Nat, x ∈ st.ids.erase b ↔ updBlock st.blocks b none x ≠ none
          intro x
          by_cases hx : x = b
          · subst hx
            constructor
            · intro hmem
              exact absurd rfl ((inv.ids_nodup.mem_erase_iff.mp hmem).1)
            · intro hne
              rw [updBlock_self] at hne
              exact absurd rfl hne
          · rw [updBlock_ne hx, inv.ids_nodup.mem_erase_iff]
            constructor
            · intro hmem
              exact (inv.dom x).mp hmem.2
            · intro hne
              exact ⟨hx, (inv.dom x).mpr hne⟩
        · show ∀ x ∈ st.unpinned_blocks.erase b, ∃ i, updBlock st.blocks b none x = some i ∧ i.res = Residence.unpinned ∧ i.totalPins = 0
          intro x hx
          obtain ⟨hxb, hxl⟩ := (inv.lru_nodup.mem_erase_iff).mp hx
          rw [updBlock_ne hxb]
          exact inv.lru_res x hxl
        · show ∀ x i, updBlock st.blocks b none x = some i → i.res = Residence.unpinned → x ∈ st.unpinned_blocks.erase b
          intro x i hxi hxres
          by_cases hx : x = b
          · subst hx
            rw [updBlock_self] at hxi
            cases hxi
          · rw [updBlock_ne hx] at hxi
            exact (inv.lru_nodup.mem_erase_iff).mpr
              ⟨hx, inv.res_lru x i hxi hxres⟩
        · show st.writing_bytes = listSum (resBytes (updBlock st.blocks b none) Residence.writing) (st.ids.erase b)
          have e1 : listSum (resBytes (updBlock st.blocks b none) Residence.writing) (st.ids.erase b) = listSum (resBytes st.blocks Residence.writing) (st.ids.erase b) :=
            listSum_resBytes_upd hbideras
          have e2 : listSum (resBytes st.blocks Residence.writing) st.ids = resBytes st.blocks Residence.writing b + listSum (resBytes st.blocks Residence.writing) (st.ids.erase b) :=
            listSum_extract _ hbid
          have e3 : resBytes st.blocks Residence.writing b = 0 := by
            rw [resBytes_eq_of_some hb, hres]
            simp
          have hwb := inv.wbytes
          omega
        · show st.total_ram_use - info.size = listSum (sizeOf (updBlock st.blocks b none)) (st.unpinned_blocks.erase b) + listSum (resBytes (updBlock st.blocks b none) Residence.pinned) (st.ids.erase b) + st.writing_bytes + listSum (resBytes (updBlock st.blocks b none) Residence.reading) (st.ids.erase b)
          have e1 : listSum (sizeOf (updBlock st.blocks b none)) (st.unpinned_blocks.erase b) = listSum (sizeOf st.blocks) (st.unpinned_blocks.erase b) :=
            listSum_sizeOf_upd hberase
          have e2 : listSum (sizeOf st.blocks) st.unpinned_blocks = sizeOf st.blocks b + listSum (sizeOf st.blocks) (st.unpinned_blocks.erase b) :=
            listSum_extract _ hblru
          have e2b : sizeOf st.blocks b = info.size := sizeOf_eq_of_some hb
          have e3 : listSum (resBytes (updBlock st.blocks b none) Residence.pinned) (st.ids.erase b) = listSum (resBytes st.blocks Residence.pinned) (st.ids.erase b) :=
            listSum_resBytes_upd hbideras
          have e4 : listSum (resBytes st.blocks Residence.pinned) st.ids = resBytes st.blocks Residence.pinned b + listSum (resBytes st.blocks Residence.pinned) (st.ids.erase b) :=
            listSum_extract _ hbid
          have e5 : resBytes st.blocks Residence.pinned b = 0 := by
            rw [resBytes_eq_of_some hb, hres]
            simp
          have e6 : listSum (resBytes (updBlock st.blocks b none) Residence.reading) (st.ids.erase b) = listSum (resBytes st.blocks Residence.reading) (st.ids.erase b) :=
            listSum_resBytes_upd hbideras
          have e7 : listSum (resBytes st.blocks Residence.reading) st.ids = resBytes st.blocks Residence.reading b + listSum (resBytes st.blocks Residence.reading) (st.ids.erase b) :=
            listSum_extract _ hbid
          have e8 : resBytes st.blocks Residence.reading b = 0 := by
            rw [resBytes_eq_of_some hb, hres]
            simp
          have hram := inv.ram
          omega
      next hres =>
        cases h
        have hbid : b ∈ st.ids := mem_ids_of_blocks_some inv hb
        have hnl : b ∉ st.unpinned_blocks :=
          not_mem_lru_of_res inv hb (by rw [hres]; decide)
        have hbideras : b ∉ st.ids.erase b := fun hx =>
          ((inv.ids_nodup.mem_erase_iff).mp hx).1 rfl
        refine ⟨?_, ?_, ?_, ?_, ?_, ?_, ?_, ?_⟩
        · show (st.ids.erase b).Nodup
          exact inv.ids_nodup.erase b
        · exact inv.lru_nodup
        · show ∀ x ∈ st.unpinned_blocks, x ∈ st.ids.erase b
          intro x hx
          have hxb : x ≠ b := fun he => hnl (he ▸ hx)
          exact (inv.ids_nodup.mem_erase_iff).mpr ⟨hxb, inv.lru_sub x hx⟩
        · show ∀ x : Nat, x ∈ st.ids.erase b ↔ updBlock st.blocks b none x ≠ none
          intro x
          by_cases hx : x = b
          · subst hx
            constructor
            · intro hmem
              exact absurd rfl ((inv.ids_nodup.mem_erase_iff.mp hmem).1)
            · intro hne
              rw [updBlock_self] at hne
              exact absurd rfl hne
          · rw [updBlock_ne hx, inv.ids_nodup.mem_erase_iff]
            constructor
            · intro hmem
              exact (inv.dom x).mp hmem.2
            · intro hne
              exact ⟨hx, (inv.dom x).mpr hne⟩
        · show ∀ x ∈ st.unpinned_blocks, ∃ i, updBlock st.blocks b none x = some i ∧ i.res = Residence.unpinned ∧ i.totalPins = 0
          intro x hx
          have hxb : x ≠ b := fun he => hnl (he ▸ hx)
          rw [updBlock_ne hxb]
          exact inv.lru_res x hx
        · show ∀ x i, updBlock st.blocks b none x = some i → i.res = Residence.unpinned → x ∈ st.unpinned_blocks
          intro x i hxi hxres
          by_cases hx : x = b
          · subst hx
            rw [updBlock_self] at hxi
            cases hxi
          · rw [updBlock_ne hx] at hxi
            exact inv.res_lru x i hxi hxres
        · show st.writing_bytes = listSum (resBytes (updBlock st.blocks b none) Residence.writing) (st.ids.erase b)
          have e1 : listSum (resBytes (updBlock st.blocks b none) Residence.writing) (st.ids.erase b) = listSum (resBytes st.blocks Residence.writing) (st.ids.erase b) :=
            listSum_resBytes_upd hbideras
          have e2 : listSum (resBytes st.blocks Residence.writing) st.ids = resBytes st.blocks Residence.writing b + listSum (resBytes st.blocks Residence.writing) (st.ids.erase b) :=
            listSum_extract _ hbid
          have e3 : resBytes st.blocks Residence.writing b = 0 := by
            rw [resBytes_eq_of_some hb, hres]
            simp
          have hwb := inv.wbytes
          omega
        · show st.total_ram_use = listSum (sizeOf (updBlock st.blocks b none)) st.unpinned_blocks + listSum (resBytes (updBlock st.blocks b none) Residence.pinned) (st.ids.erase b) + st.writing_bytes + listSum (resBytes (updBlock st.blocks b none) Residence.reading) (st.ids.erase b)
          have e1 : listSum (sizeOf (updBlock st.blocks b none)) st.unpinned_blocks = listSum (sizeOf st.blocks) st.unpinned_blocks :=
            listSum_sizeOf_upd hnl
          have e3 : listSum (resBytes (updBlock st.blocks b none) Residence.pinned) (st.ids.erase b) = listSum (resBytes st.blocks Residence.pinned) (st.ids.erase b) :=
            listSum_resBytes_upd hbideras
          have e4 : listSum (resBytes st.blocks Residence.pinned) st.ids = resBytes st.blocks Residence.pinned b + listSum (resBytes st.blocks Residence.pinned) (st.ids.erase b) :=
            listSum_extract _ hbid
          have e5 : resBytes st.blocks Residence.pinned b = 0 := by
            rw [resBytes_eq_of_some hb, hres]
            simp
          have e6 : listSum (resBytes (updBlock st.blocks b none) Residence.reading) (st.ids.erase b) = listSum (resBytes st.blocks Residence.reading) (st.ids.erase b) :=
            listSum_resBytes_upd hbideras
          have e7 : listSum (resBytes st.blocks Residence.reading) st.ids = resBytes st.blocks Residence.reading b + listSum (resBytes st.blocks Residence.reading) (st.ids.erase b) :=
            listSum_extract _ hbid
          have e8 : resBytes st.blocks Residence.reading b = 0 := by
            rw [resBytes_eq_of_some hb, hres]
            simp
          have hram := inv.ram
          omega
      · cases h
    next => cases h

/-- Every `BlockPool` step preserves the pool invariant. -/
theorem inv_step {st st' : BlockPool} (inv : st.Inv)
    (h : BlockPool.Step st st') : st'.Inv := by
  cases h with
  | alloc id size w he => exact inv_alloc inv he
  | incPin b w he => exact inv_incPin inv he
  | decPin b w he => exact inv_decPin inv he
  | onWrite b he => exact inv_onWrite inv he
  | pin b w r he => exact inv_pin inv he
  | onRead b rs he => exact inv_onRead inv he
  | destroy b he => exact inv_destroy inv he

/-- Every reachable `BlockPool` state satisfies the pool invariant. -/
theorem reachable_inv {st : BlockPool} (h : st.Reachable) : st.Inv := by
  induction h with
  | init soft hard W => exact inv_initial soft hard W
  | step _ hstep ih => exact inv_step ih hstep

/-! ### Claim theorems: ScheduleThread -/

/-- C5: For every non-empty collection of timers held by the ScheduleThread
heap, the element returned by `top()` is a timer with the smallest
`next_timeout`: the heap is kept ordered by the source comparator
`Timer.lt` (which inverts the comparison), so the comparator-maximal top
element has minimal `next_timeout`. -/
theorem scheduleThread_heap_top_min (x : Timer) (xs : List Timer) :
    ∀ t ∈ x :: xs, (heapTop x xs).next_timeout ≤ t.next_timeout := by
  intro t ht
  rcases List.mem_cons.mp ht with rfl | hm
  · exact (heapTop_le xs t).1
  · exact (heapTop_le xs x).2 t hm

/-- Witness for C5 at a concrete three-timer heap. -/
theorem scheduleThread_heap_top_min_witness :
    Timer.mk 9 1 2 false ∈
      [Timer.mk 7 1 0 false, Timer.mk 3 1 1 true, Timer.mk 9 1 2 false] ∧
    (heapTop (Timer.mk 7 1 0 false)
      [Timer.mk 3 1 1 true, Timer.mk 9 1 2 false]).next_timeout ≤
      (Timer.mk 9 1 2 false).next_timeout :=
  ⟨by decide,
    scheduleThread_heap_top_min (Timer.mk 7 1 0 false)
      [Timer.mk 3 1 1 true, Timer.mk 9 1 2 false]
      (Timer.mk 9 1 2 false) (by decide)⟩

/-- C6: `Add(P, task, own)` inserts a timer whose first deadline is
`now + P`; the worker requeues a fired timer with deadline
`next_timeout + period` (not current time plus period); hence after `k`
firings the deadline is `now + (k+1)·P`, i.e. the timer fires every `P`. -/
theorem scheduleThread_add_period_schedule (tasks : List Timer)
    (now P task : Nat) (own : Bool) (k : Nat) :
    scheduleAdd tasks now P task own
        = Timer.mk (now + P) P task own :: tasks ∧
    (∀ t : Timer, (requeueTimer t).next_timeout
        = t.next_timeout + t.period) ∧
    (requeueTimer^[k] (Timer.mk (now + P) P task own)).next_timeout
        = now + (k + 1) * P := by
  refine ⟨rfl, fun t => rfl, ?_⟩
  rw [requeueTimer_iterate]
  show now + P + k * P = now + (k + 1) * P
  ring

/-- C10: the requeued timer keeps the period, the task pointer and the
ownership flag, changing only `next_timeout`; consequently the `k`-th
scheduled deadline of a timer added at `t0` with period `P` is exactly
`t0 + (k+1)·P`, independent of how long the `RunTask` invocations take
(the requeue step does not read the clock). -/
theorem scheduleThread_requeue_frame (t : Timer) (t0 P task : Nat)
    (own : Bool) (k : Nat) :
    (requeueTimer t).period = t.period ∧
    (requeueTimer t).task = t.task ∧
    (requeueTimer t).own_task = t.own_task ∧
    (requeueTimer^[k] t).next_timeout = t.next_timeout + k * t.period ∧
    (requeueTimer^[k] (Timer.mk (t0 + P) P task own)).next_timeout
        = t0 + (k + 1) * P := by
  refine ⟨rfl, rfl, rfl, ?_, ?_⟩
  · rw [requeueTimer_iterate]
  · rw [requeueTimer_iterate]
    show t0 + P + k * P = t0 + (k + 1) * P
    ring

/-- C7 (code bug): the destructor sets the terminate flag and notifies, and
deletes exactly the owned tasks; but when the timer heap is empty the
worker is blocked in a condition wait whose predicate is
`!tasks_.empty()` — it ignores the terminate flag, so the predicate is
false after the destructor's notify, the worker waits again, and `join`
never returns.  The first conjunct evaluates the wait predicate at the
failing state (terminate set, heap empty); the second shows the
predicate never consults the terminate flag; the third checks the
destructor's deletion set is exactly the owned tasks. -/
theorem scheduleThread_empty_heap_wait_ignores_terminate :
    workerEmptyWaitPredicate true [] = false ∧
    (∀ tasks : List Timer, workerEmptyWaitPredicate true tasks
        = workerEmptyWaitPredicate false tasks) ∧
    destructorDeletedTasks
      [Timer.mk 5 2 7 true, Timer.mk 9 3 8 false, Timer.mk 4 1 6 true]
        = [7, 6] :=
  ⟨rfl, fun _ => rfl, by decide⟩

/-! ### Helper lemmas for pin vectors -/

theorem listAdd_getD_self : ∀ (l : List Nat) (w d : Nat), w < l.length →
    (listAdd l w d).getD w 0 = l.getD w 0 + d
  | [], w, d, hw => by simp at hw
  | x :: xs, 0, d, _ => by simp [listAdd]
  | x :: xs, w + 1, d, hw => by
    simp only [listAdd, List.getD_cons_succ]
    exact listAdd_getD_self xs w d (by simpa using hw)

theorem listAdd_getD_ne : ∀ (l : List Nat) {w w' : Nat} (d : Nat), w' ≠ w →
    (listAdd l w d).getD w' 0 = l.getD w' 0
  | [], _, _, _, _ => by simp [listAdd]
  | x :: xs, 0, w', d, hne => by
    cases w' with
    | zero => exact absurd rfl hne
    | succ n => simp [listAdd]
  | x :: xs, w + 1, w', d, hne => by
    cases w' with
    | zero => simp [listAdd]
    | succ n =>
      simp only [listAdd, List.getD_cons_succ]
      exact listAdd_getD_ne xs d (fun he => hne (by rw [he]))

theorem getD_replicate_zero : ∀ (W i : Nat), (List.replicate W 0).getD i 0 = 0
  | 0, i => by cases i <;> rfl
  | W + 1, 0 => rfl
  | W + 1, i + 1 => by
    simp only [List.replicate, List.getD_cons_succ]
    exact getD_replicate_zero W i

theorem listAdd_sum : ∀ (l : List Nat) (w d : Nat), w < l.length →
    (listAdd l w d).foldr (· + ·) 0 = l.foldr (· + ·) 0 + d
  | [], w, d, hw => by simp at hw
  | x :: xs, 0, d, _ => by
    simp only [listAdd, List.foldr]
    omega
  | x :: xs, w + 1, d, hw => by
    simp only [listAdd, List.foldr]
    rw [listAdd_sum xs w d (by simpa using hw)]
    omega

theorem sum_replicate_zero : ∀ W : Nat,
    (List.replicate W 0).foldr (· + ·) 0 = 0
  | 0 => rfl
  | W + 1 => by
    simp only [List.replicate, List.foldr]
    rw [sum_replicate_zero W]

theorem oneHot_getD_self {W w : Nat} (hw : w < W) :
    (oneHot W w).getD w 0 = 1 := by
  unfold oneHot
  rw [listAdd_getD_self _ _ _ (by simpa using hw), getD_replicate_zero]

theorem oneHot_getD_ne {W w w' : Nat} (hne : w' ≠ w) :
    (oneHot W w).getD w' 0 = 0 := by
  unfold oneHot
  rw [listAdd_getD_ne _ _ hne, getD_replicate_zero]

theorem oneHot_sum {W w : Nat} (hw : w < W) :
    (oneHot W w).foldr (· + ·) 0 = 1 := by
  unfold oneHot
  rw [listAdd_sum _ _ _ (by simpa using hw), sum_replicate_zero]

theorem hasRes_iff {m : Nat → Option ByteBlock} {b : Nat} {r : Residence} :
    hasRes m b r = true ↔ ∃ info, m b = some info ∧ info.res = r := by
  cases hm : m b <;> simp [hasRes, hm]

/-! ### Claim theorems: BlockPool -/

/-- C2: with a positive hard limit, a successful admission by
`RequestInternalMemory` leaves `total_ram_use + requested_bytes ≤
hard_ram_limit`; a request whose admission would exceed the ceiling is not
admitted — the caller blocks on `memory_change_` instead. -/
theorem blockPool_hard_limit_admission (st : BlockPool) (size : Nat)
    (hpos : 0 < st.hard_ram_limit) :
    (∀ st', st.RequestInternalMemory size = some st' →
      st'.total_ram_use + st'.requested_bytes ≤ st'.hard_ram_limit) ∧
    (st.hard_ram_limit < st.total_ram_use + st.requested_bytes + size →
      st.RequestInternalMemory size = none) := by
  constructor
  · intro st' h
    obtain ⟨hst1, hbound⟩ := RequestInternalMemory_some h
    subst hst1
    show st.total_ram_use + (st.requested_bytes + size) ≤ st.hard_ram_limit
    omega
  · intro hover
    unfold BlockPool.RequestInternalMemory
    rw [if_neg (by omega)]

/-- Witness for C2: admission under the limit keeps the bound; an
over-the-limit request is refused (blocks). -/
theorem blockPool_hard_limit_admission_witness :
    (c2granted.total_ram_use + c2granted.requested_bytes ≤
      c2granted.hard_ram_limit) ∧
    c2deny.RequestInternalMemory 4096 = none :=
  ⟨(blockPool_hard_limit_admission (BlockPool.initial 0 8192 1) 4096
      (by decide)).1 c2granted rfl,
    (blockPool_hard_limit_admission c2deny 4096 (by decide)).2 (by decide)⟩

/-- C1: a successful `AllocateByteBlock(size, w)` on a reachable pool yields
a block that is RAM-resident pinned with pin count exactly 1 on worker `w`
(and 0 on every other worker, total 1), and the fresh block is not placed in
`unpinned_blocks`. -/
theorem allocateByteBlock_pinned_once {st st' : BlockPool} {id size w : Nat}
    (hst : st.Reachable) (h : st.AllocateByteBlock id size w = some st') :
    pinCountOf st' id w = 1 ∧
    (∀ w', w' ≠ w → pinCountOf st' id w' = 0) ∧
    totalPinsOf st' id = 1 ∧
    hasRes st'.blocks id Residence.pinned = true ∧
    id ∉ st'.unpinned_blocks := by
  have inv := reachable_inv hst
  unfold BlockPool.AllocateByteBlock at h
  split at h
  · cases h
  next hid =>
    split at h
    next hw =>
      split at h
      · cases h
      next st1 hrim =>
        obtain ⟨hst1, -⟩ := RequestInternalMemory_some hrim
        subst hst1
        cases h
        refine ⟨?_, ?_, ?_, ?_, ?_⟩
        · simpa [pinCountOf, updBlock, freshBlock] using oneHot_getD_self hw
        · intro w' hne
          simpa [pinCountOf, updBlock, freshBlock] using oneHot_getD_ne hne
        · simp [totalPinsOf, updBlock, freshBlock, ByteBlock.totalPins]
          exact oneHot_sum hw
        · simp [hasRes, updBlock, freshBlock]
        · show id ∉ st.unpinned_blocks
          exact fun hmem => (inv.dom id).mp (inv.lru_sub id hmem) hid
    next => cases h

/-- Witness for C1 at a concrete allocation. -/
theorem allocateByteBlock_pinned_once_witness :
    pinCountOf c1st 0 0 = 1 ∧ pinCountOf c1st 0 1 = 0 ∧
    totalPinsOf c1st 0 = 1 ∧
    hasRes c1st.blocks 0 Residence.pinned = true ∧
    0 ∉ c1st.unpinned_blocks :=
  have hthm := allocateByteBlock_pinned_once
    (BlockPool.Reachable.init 0 0 1)
    (rfl : (BlockPool.initial 0 0 1).AllocateByteBlock 0 4096 0 = some c1st)
  ⟨hthm.1, hthm.2.1 1 (by decide), hthm.2.2.1, hthm.2.2.2.1, hthm.2.2.2.2⟩

/-- C4: on every reachable pool, `EvictBlock` takes the LRU entry (the head)
of `unpinned_blocks`; the chosen block is RAM-resident strictly unpinned —
zero pins in total and on every worker — and is not in `writing_`. -/
theorem evictBlock_picks_unpinned_lru {st st' : BlockPool} {b : Nat}
    (hst : st.Reachable) (he : st.EvictBlock = some (b, st')) :
    st.unpinned_blocks.head? = some b ∧
    hasRes st.blocks b Residence.unpinned = true ∧
    hasRes st.blocks b Residence.writing = false ∧
    totalPinsOf st b = 0 ∧
    (∀ w : Nat, pinCountOf st b w = 0) := by
  have inv := reachable_inv hst
  unfold BlockPool.EvictBlock at he
  split at he
  · cases he
  next b0 rest hl =>
    split at he
    · cases he
    next info hb =>
      cases he
      have hmem : b ∈ st.unpinned_blocks := by
        rw [hl]
        exact List.mem_cons_self b rest
      obtain ⟨i2, hbi2, hres, hpz⟩ := inv.lru_res b hmem
      rw [hb] at hbi2
      cases hbi2
      refine ⟨?_, ?_, ?_, ?_, ?_⟩
      · rw [hl]
        rfl
      · simp [hasRes, hb, hres]
      · simp [hasRes, hb, hres]
      · simp only [totalPinsOf, hb]
        exact hpz
      · intro w
        simp only [pinCountOf, hb]
        exact getD_eq_zero_of_sum_zero hpz w

/-- The two-step reachability of `c4b`. -/
theorem c4b_reachable : c4b.Reachable :=
  BlockPool.Reachable.step
    (BlockPool.Reachable.step (BlockPool.Reachable.init 0 0 1)
      (BlockPool.Step.alloc 0 4096 0 rfl))
    (BlockPool.Step.decPin 0 0 rfl)

/-- Witness for C4 at a concrete eviction. -/
theorem evictBlock_picks_unpinned_lru_witness :
    c4b.unpinned_blocks.head? = some 0 ∧
    hasRes c4b.blocks 0 Residence.unpinned = true ∧
    hasRes c4b.blocks 0 Residence.writing = false ∧
    totalPinsOf c4b 0 = 0 ∧
    pinCountOf c4b 0 0 = 0 :=
  have hthm := evictBlock_picks_unpinned_lru c4b_reachable
    (rfl : c4b.EvictBlock = some (0, c4evicted))
  ⟨hthm.1, hthm.2.1, hthm.2.2.1, hthm.2.2.2.1, hthm.2.2.2.2 0⟩

/-- C3 (amended): on every reachable pool, `total_ram_use` equals the bytes
of the `unpinned_blocks` LRU, plus the bytes of RAM-pinned blocks counted
once each, plus `writing_bytes` (in-flight writes occupy RAM until
`OnWriteComplete`), plus the bytes of in-flight read buffers. -/
theorem blockPool_ram_accounting {st : BlockPool} (h : st.Reachable) :
    st.total_ram_use =
      listSum (sizeOf st.blocks) st.unpinned_blocks
        + listSum (resBytes st.blocks Residence.pinned) st.ids
        + st.writing_bytes
        + listSum (resBytes st.blocks Residence.reading) st.ids :=
  (reachable_inv h).ram

/-- Witness for the amended C3 at the initial pool. -/
theorem blockPool_ram_accounting_witness :
    (BlockPool.initial 16 32 2).total_ram_use =
      listSum (sizeOf (BlockPool.initial 16 32 2).blocks)
          (BlockPool.initial 16 32 2).unpinned_blocks
        + listSum (resBytes (BlockPool.initial 16 32 2).blocks
            Residence.pinned) (BlockPool.initial 16 32 2).ids
        + (BlockPool.initial 16 32 2).writing_bytes
        + listSum (resBytes (BlockPool.initial 16 32 2).blocks
            Residence.reading) (BlockPool.initial 16 32 2).ids :=
  blockPool_ram_accounting (BlockPool.Reachable.init 16 32 2)

/-- C3 (counterexample): in the reachable state with one 4096-byte block
pinned twice, `total_ram_use = 4096` but `bytes in unpinned_blocks +
total_pinned_bytes + writing_bytes = 0 + 8192 + 0` — `total_pinned_bytes`
counts every pin, so the claimed equation fails. -/
theorem blockPool_ram_equation_cex :
    cex3b.Reachable ∧
    cex3b.total_ram_use ≠
      listSum (sizeOf cex3b.blocks) cex3b.unpinned_blocks
        + cex3b.pin_count.total_pinned_bytes + cex3b.writing_bytes := by
  constructor
  · exact BlockPool.Reachable.step
      (BlockPool.Reachable.step (BlockPool.Reachable.init 0 0 1)
        (BlockPool.Step.alloc 0 4096 0 rfl))
      (BlockPool.Step.incPin 0 0 rfl)
  · decide

/-- Mapping a constant function over a list yields a replicate of its
length. -/
theorem listMapConst {α β : Type} (c : β) :
    ∀ l : List α, l.map (fun _ => c) = List.replicate l.length c
  | [] => rfl
  | x :: xs => by
    simp only [List.map, List.length_cons, List.replicate]
    rw [listMapConst c xs]

/-- Reduction of `PinBlock` on a block in `reading_`: one promise is
attached, nothing else changes, and the returned future is pending. -/
theorem pinBlock_reading_eq {st st1 : BlockPool} {b v : Nat} {r : PinResult}
    {info : ByteBlock} (hbi : st.blocks b = some info)
    (hir : info.res = Residence.reading)
    (h : st.PinBlock b v = some (st1, r)) :
    st1 = { st with promises := fun x =>
        if x = b then v :: st.promises x else st.promises x } ∧
      r = PinResult.pending b := by
  simp only [BlockPool.PinBlock, hbi] at h
  split at h
  next hv =>
    split at h
    next h1 => rw [hir] at h1; exact absurd h1 (by decide)
    next h1 => rw [hir] at h1; exact absurd h1 (by decide)
    next h1 => rw [hir] at h1; exact absurd h1 (by decide)
    next h1 => rw [hir] at h1; exact absurd h1 (by decide)
    next h1 =>
      cases h
      exact ⟨rfl, rfl⟩
  next => cases h

/-- Reduction of `PinBlock` on a swapped block: the block moves to
`reading_` with a fresh single-promise `ReadRequest`, exactly one read is
issued, and the returned future is pending. -/
theorem pinBlock_swapped_eq {st st1 : BlockPool} {b v : Nat} {r : PinResult}
    {info : ByteBlock} (hbi : st.blocks b = some info)
    (hir : info.res = Residence.swapped)
    (h : st.PinBlock b v = some (st1, r)) :
    st1.blocks = updBlock st.blocks b
        (some { info with res := Residence.reading }) ∧
    st1.promises b = [v] ∧
    st1.reads_issued = st.reads_issued + 1 ∧
    r = PinResult.pending b := by
  simp only [BlockPool.PinBlock, hbi] at h
  split at h
  next hv =>
    split at h
    next h1 => rw [hir] at h1; exact absurd h1 (by decide)
    next h1 => rw [hir] at h1; exact absurd h1 (by decide)
    next h1 => rw [hir] at h1; exact absurd h1 (by decide)
    next h1 =>
      split at h
      · cases h
      next st1x hrim =>
        obtain ⟨hst1x, -⟩ := RequestInternalMemory_some hrim
        subst hst1x
        cases h
        refine ⟨rfl, ?_, rfl, rfl⟩
        simp
    next h1 => rw [hir] at h1; exact absurd h1 (by decide)
  next => cases h

/-- While a block is in `reading_`, further `PinBlock` calls only attach
promises to its `ReadRequest`: no read is issued, the block map is
unchanged, and every returned future is pending on the same block. -/
theorem pinSeq_reading : ∀ (ws : List Nat) {st st2 : BlockPool} {b : Nat}
    {rs : List PinResult},
    hasRes st.blocks b Residence.reading = true →
    pinSeq st b ws = some (st2, rs) →
    st2.reads_issued = st.reads_issued ∧
    (st2.promises b).length = (st.promises b).length + ws.length ∧
    hasRes st2.blocks b Residence.reading = true ∧
    rs = ws.map (fun _ => PinResult.pending b)
  | [], st, st2, b, rs, hres, hp => by
    cases hp
    exact ⟨rfl, rfl, hres, rfl⟩
  | v :: ws, st, st2, b, rs, hres, hp => by
    obtain ⟨info, hbi, hir⟩ := hasRes_iff.mp hres
    rw [pinSeq] at hp
    cases hpb : st.PinBlock b v with
    | none => rw [hpb] at hp; cases hp
    | some p =>
      obtain ⟨st1, r⟩ := p
      rw [hpb] at hp
      obtain ⟨hst1, hr⟩ := pinBlock_reading_eq hbi hir hpb
      simp only at hp
      subst hst1
      subst hr
      split at hp
      · cases hp
      next st2x rsx heq =>
        cases hp
        have hres1 : hasRes ({ st with promises := fun x =>
            if x = b then v :: st.promises x else st.promises x } :
            BlockPool).blocks b Residence.reading = true := hres
        obtain ⟨ih1, ih2, ih3, ih4⟩ := pinSeq_reading ws hres1 heq
        refine ⟨ih1, ?_, ih3, ?_⟩
        · rw [ih2]
          have hpr : (({ st with promises := fun x =>
              if x = b then v :: st.promises x else st.promises x } :
              BlockPool).promises b).length = (st.promises b).length + 1 := by
            simp
          rw [hpr]
          simp only [List.length_cons]
          omega
        · rw [ih4]
          rfl

/-- C8: `K` mutex-serialised `PinBlock` calls on the same swapped block
create exactly one `ReadRequest` (all `K` promises attach to it), issue
exactly one asynchronous read, return pending futures on the same block, and
when the read completes `OnReadComplete` resolves all `K` promises with
equal-valued pinned handles to that block. -/
theorem pinBlock_coalesces {st st2 : BlockPool} {b v : Nat}
    {ws : List Nat} {rs : List PinResult}
    (hsw : hasRes st.blocks b Residence.swapped = true)
    (hp : pinSeq st b (v :: ws) = some (st2, rs)) :
    st2.reads_issued = st.reads_issued + 1 ∧
    (st2.promises b).length = (v :: ws).length ∧
    rs = (v :: ws).map (fun _ => PinResult.pending b) ∧
    (st2.OnReadComplete b).map Prod.snd
      = some (List.replicate (v :: ws).length (PinResult.ready b)) := by
  obtain ⟨info, hbi, hir⟩ := hasRes_iff.mp hsw
  rw [pinSeq] at hp
  cases hpb : st.PinBlock b v with
  | none => rw [hpb] at hp; cases hp
  | some p =>
    obtain ⟨st1, r⟩ := p
    rw [hpb] at hp
    obtain ⟨hbl, hprom, hreads, hr⟩ := pinBlock_swapped_eq hbi hir hpb
    simp only at hp
    subst hr
    split at hp
    · cases hp
    next st2x rsx heq =>
      cases hp
      have hreadres : hasRes st1.blocks b Residence.reading = true := by
        rw [hbl, hasRes_iff]
        exact ⟨_, updBlock_self _ _ _, rfl⟩
      obtain ⟨ih1, ih2, ih3, ih4⟩ := pinSeq_reading ws hreadres heq
      have hpr1 : (st2.promises b).length = ws.length + 1 := by
        rw [ih2, hprom]
        simp only [List.length_cons, List.length_nil]
        omega
      obtain ⟨info2, hbi2, hir2⟩ := hasRes_iff.mp ih3
      refine ⟨ih1.trans hreads, ?_, ?_, ?_⟩
      · rw [hpr1]
        rfl
      · rw [ih4]
        rfl
      · simp only [BlockPool.OnReadComplete, hbi2]
        rw [if_pos hir2]
        rw [listMapConst, hpr1]
        rfl

/-- Witness for C8 with three concurrent pinners. -/
theorem pinBlock_coalesces_witness :
    c8st2.reads_issued = c8st.reads_issued + 1 ∧
    (c8st2.promises 0).length = 3 ∧
    c8rs = [PinResult.pending 0, PinResult.pending 0, PinResult.pending 0] ∧
    (c8st2.OnReadComplete 0).map Prod.snd
      = some [PinResult.ready 0, PinResult.ready 0, PinResult.ready 0] :=
  have hthm := @pinBlock_coalesces c8st c8st2 0 0 [1, 1] c8rs rfl rfl
  ⟨hthm.1, hthm.2.1, hthm.2.2.1, hthm.2.2.2⟩

/-- C9 (counterexample): the limits are class-static.  In a process with two
pools (statics soft = 100, hard = 200), setting the limits through one pool
changes the hard limit observed by the other pool from 200 to 9 — the claim
that other pools observe unchanged limits is false. -/
theorem blockPool_limits_shared_cex :
    ((BlockPoolProcess.mk ⟨100, 200⟩ 2).setLimits 7 9).observedHard 1
      ≠ (BlockPoolProcess.mk ⟨100, 200⟩ 2).observedHard 1 := by decide

/-- C9 (amended): `soft_ram_limit_` and `hard_ram_limit_` are class-static
and shared: constructing a `BlockPool` leaves the limits observed by every
pool unchanged (the constructor ignores its limit arguments), while changing
the limits changes the limits observed by every `BlockPool` instance in the
process uniformly. -/
theorem blockPool_limits_static (p : BlockPoolProcess) (s h s2 h2 i j : Nat) :
    (p.constructPool s h).observedSoft i = p.observedSoft i ∧
    (p.constructPool s h).observedHard i = p.observedHard i ∧
    (p.setLimits s2 h2).observedSoft i = s2 ∧
    (p.setLimits s2 h2).observedHard i = h2 ∧
    (p.setLimits s2 h2).observedHard i = (p.setLimits s2 h2).observedHard j :=
  ⟨rfl, rfl, rfl, rfl, rfl⟩

end Thrill

